import Mathlib

/-!
# Verification of the sports-tournament-scheduling core

A shallow embedding, in Lean 4, of the constraint-encoding and validation
core of the `sports-tournament-scheduling` repository:

* the schedule validator (`src/solution_checker.py`),
* the sequential-counter cardinality encoder and the one-hot lexicographic
  comparators (`src/source/SAT/sat_encodings.py`),
* the circle-method pairing tables with the first-row swap heuristic
  (`src/source/SAT/sat_model_final.py`, `src/source/SAT/sat_model_rr.py`),
* the decision-output decoder (`src/source/SAT/solve_sat_instance.py`).

Each Python function is translated into an executable Lean definition over
the same data (nested lists in the schedule exchange format, clause lists
over named boolean variables), and the behavioural properties of the
specification are proved or refuted against those definitions.
-/

set_option maxHeartbeats 1000000

namespace STS

/-! ## Schedule validator (`src/solution_checker.py`)

The Python checker manipulates untyped nested lists.  In the schedule
exchange format a solution is a list of periods, each period a list of
weeks, each week a two-element list `[home, away]` of 1-based team ids.
The generic `get_elements` recursion, applied to values of this shape,
flattens a fixed number of levels; each specialisation below states which
level it works at. -/

/-- `get_teams(solution)`: the recursion descends until it reaches the
all-int match lists, flattening the period and the match level. -/
def get_teams (sol : List (List (List Nat))) : List Nat :=
  sol.flatten.flatten

/-- `get_teams` applied one level down (to a single period or a single
week, i.e. a list of matches): flattens exactly the match level. -/
def get_teams1 (ms : List (List Nat)) : List Nat :=
  ms.flatten

/-- `get_matches(solution)`: for exchange-format input every match is a
two-element int list, so the recursion flattens exactly the period level. -/
def get_matches (sol : List (List (List Nat))) : List (List Nat) :=
  sol.flatten

/-- `get_periods(solution, n-1)`: the stop condition "every element is a
list of length `n-1`" already holds at the top level whenever
`check_solution` reaches this call, because `fatal_errors` has verified
that every period has `n-1` weeks.  The deeper descent of the Python
recursion is unreachable from `check_solution` and is not modelled. -/
def get_periods (sol : List (List (List Nat))) (m : Nat) : List (List (List Nat)) :=
  if sol.all (fun p => p.length = m) then sol else []

/-- `get_weeks(periods, n)`: week `i` collects the `i`-th match of every
period (Python `p[i]`; the index is in range on every path that reaches
this call, the embedding uses `getD`). -/
def get_weeks (periods : List (List (List Nat))) (n : Nat) : List (List (List Nat)) :=
  (List.range (n - 1)).map (fun i => periods.map (fun p => p.getD i []))

/-- Python `max(teams)`.  CPython raises on an empty list; every use below
is guarded by a hypothesis or a concrete input making the list nonempty,
and the embedding returns `0` on `[]`. -/
def pyMax (l : List Nat) : Nat :=
  l.foldl max 0

def msgEmpty : String := "The solution cannot be empty"
def msgMissing : String := "Missing team in the solution or team out of range!!!"
def msgOdd : String := "\"n\" should be even!!!"
def msgPeriods : String := "the number of periods is not compliant!!!"
def msgWeeks : String := "the number of weeks is not compliant!!!"
def msgDup : String := "There are duplicated matches!!!"
def msgSelf : String := "There are self-playing teams"
def msgWeekRep : String := "Some teams play multiple times in a week"
def msgPeriodRep : String := "Some teams play more than twice in the period"

/-- `fatal_errors(solution)` from `src/solution_checker.py`.  The local
Python names `teams` and `n = max(teams)` are inlined (both are pure). -/
def fatal_errors (sol : List (List (List Nat))) : List String :=
  if sol.length = 0 then [msgEmpty]
  else
    (if (List.range' 1 (pyMax (get_teams sol))).any
        (fun t => !((get_teams sol).contains t)) then [msgMissing] else []) ++
    (if pyMax (get_teams sol) % 2 ≠ 0 then [msgOdd] else []) ++
    (if sol.length ≠ pyMax (get_teams sol) / 2 then [msgPeriods] else []) ++
    (if sol.any (fun s => s.length ≠ pyMax (get_teams sol) - 1) then [msgWeeks] else [])

/-- `itertools.combinations(ts, 2)` on a duplicate-free list: all pairs
`(ts[i], ts[j])` with `i < j`, in order. -/
def combinations2 : List Nat → List (Nat × Nat)
  | [] => []
  | x :: xs => xs.map (fun y => (x, y)) ++ combinations2 xs

/-- `check_solution(solution)` from `src/solution_checker.py`.  The Python
function returns either the string `'Valid solution'` or the list of
violation messages; the embedding returns the corresponding sum.  Python's
`set(teams)` is modelled by `List.dedup`; its iteration order is
unspecified in Python, and every use below (an `any` over the pairs) is
order-independent. -/
def check_solution (sol : List (List (List Nat))) : String ⊕ List String :=
  if (fatal_errors sol).length = 0 then
    let teams := get_teams sol
    let n := pyMax teams
    let teams_matches := combinations2 teams.dedup
    let solution_matches := get_matches sol
    let dupErr :=
      if teams_matches.any (fun ha =>
          solution_matches.count [ha.1, ha.2] + solution_matches.count [ha.2, ha.1] > 1)
      then [msgDup] else []
    -- Python unpacks `h, a = match`, i.e. `match[0]` and `match[1]`
    let selfErr :=
      if solution_matches.any (fun mch => mch.getD 0 0 = mch.getD 1 0)
      then [msgSelf] else []
    let periods := get_periods sol (n - 1)
    let weeks := get_weeks periods n
    let teams_per_week := weeks.map get_teams1
    let weekErr :=
      if teams_per_week.any (fun tw => tw.length ≠ tw.dedup.length)
      then [msgWeekRep] else []
    let teams_per_period := periods.map get_teams1
    -- NOTE: this mirrors the Python bug: it counts duplicated whole-period
    -- team lists, not per-team occurrences inside one period.
    let periodErr :=
      if teams_per_period.any (fun tp => teams_per_period.count tp > 2)
      then [msgPeriodRep] else []
    let errors2 := dupErr ++ selfErr ++ weekErr ++ periodErr
    if errors2.length = 0 then Sum.inl "Valid solution" else Sum.inr errors2
  else Sum.inr (fatal_errors sol)

/-! ### The five scheduling invariants, as stated by the specification.

These predicates follow the specification's wording (they are the rules the
validator is claimed to enforce), phrased decidably so that they can be
evaluated on concrete schedules. -/

/-- Invariant (a): the observed team ids are exactly `{1..n}`. -/
def specTeamsExact (sol : List (List (List Nat))) (n : Nat) : Prop :=
  (∀ t ∈ get_teams sol, 1 ≤ t ∧ t ≤ n) ∧ (∀ t ∈ List.range' 1 n, t ∈ get_teams sol)

/-- Invariant (b): every unordered pair of distinct teams appears exactly
once among the played matches. -/
def specPairsOnce (sol : List (List (List Nat))) (n : Nat) : Prop :=
  ∀ i ∈ List.range' 1 n, ∀ j ∈ List.range' 1 n, i < j →
    (get_matches sol).count [i, j] + (get_matches sol).count [j, i] = 1

/-- Invariant (c): no team plays against itself. -/
def specNoSelfPlay (sol : List (List (List Nat))) : Prop :=
  ∀ mch ∈ get_matches sol, mch.getD 0 0 ≠ mch.getD 1 0

/-- Invariant (d): every team appears at most once per week. -/
def specOncePerWeek (sol : List (List (List Nat))) (n : Nat) : Prop :=
  ∀ wk ∈ get_weeks sol n, ∀ t ∈ get_teams1 wk, (get_teams1 wk).count t ≤ 1

/-- Invariant (e): every team appears at most twice within any single
period. -/
def specAtMostTwicePerPeriod (sol : List (List (List Nat))) : Prop :=
  ∀ per ∈ sol, ∀ t ∈ get_teams1 per, (get_teams1 per).count t ≤ 2

/-- All five invariants together. -/
def specAllFive (sol : List (List (List Nat))) (n : Nat) : Prop :=
  specTeamsExact sol n ∧ specPairsOnce sol n ∧ specNoSelfPlay sol ∧
  specOncePerWeek sol n ∧ specAtMostTwicePerPeriod sol

instance (sol : List (List (List Nat))) (n : Nat) : Decidable (specTeamsExact sol n) := by
  unfold specTeamsExact; infer_instance

instance (sol : List (List (List Nat))) (n : Nat) : Decidable (specPairsOnce sol n) := by
  unfold specPairsOnce; infer_instance

instance (sol : List (List (List Nat))) : Decidable (specNoSelfPlay sol) := by
  unfold specNoSelfPlay; infer_instance

instance (sol : List (List (List Nat))) (n : Nat) : Decidable (specOncePerWeek sol n) := by
  unfold specOncePerWeek; infer_instance

instance (sol : List (List (List Nat))) : Decidable (specAtMostTwicePerPeriod sol) := by
  unfold specAtMostTwicePerPeriod; infer_instance

instance (sol : List (List (List Nat))) (n : Nat) : Decidable (specAllFive sol n) := by
  unfold specAllFive; infer_instance

/-! ### Concrete schedules used by the claims -/

/-- The `n = 4` schedule given by the specification's concrete scenario
(period-major, week-minor). -/
def schedN4 : List (List (List Nat)) :=
  [[[1, 2], [3, 1], [4, 1]], [[3, 4], [4, 2], [2, 3]]]

/-- `schedN4` with the week-3 match of period 1 changed from `[4,1]` to
`[5,1]`: a schedule built for `n = 4` that contains the team id `5`,
while teams `1..4` all still appear. -/
def schedN4team5 : List (List (List Nat)) :=
  [[[1, 2], [3, 1], [5, 1]], [[3, 4], [4, 2], [2, 3]]]

/-- An `n = 6` round robin (the circle-method table, period-major): every
pair is played once and every team plays once a week, but team `6` plays
all five weeks in period 1. -/
def schedN6 : List (List (List Nat)) :=
  [[[6, 1], [6, 2], [6, 3], [6, 4], [6, 5]],
   [[5, 2], [3, 1], [4, 2], [5, 3], [4, 1]],
   [[4, 3], [5, 4], [5, 1], [2, 1], [3, 2]]]

/-- C1: `check_solution` accepts `schedN6` although invariant (e) — each
team appears at most twice within a single period — is violated (team 6
plays five times in period 1).  The per-period check of the code counts
duplicated whole-period team lists (`teams_per_period.count(tp)`) instead
of per-team occurrences, contradicting the comment directly above it, so
the claimed "success iff all five rules hold" equivalence fails in the
right-to-left direction. -/
theorem check_solution_accepts_period_violation :
    check_solution schedN6 = Sum.inl "Valid solution" ∧
    ¬ specAtMostTwicePerPeriod schedN6 ∧
    specTeamsExact schedN6 6 ∧ specPairsOnce schedN6 6 ∧
    specNoSelfPlay schedN6 ∧ specOncePerWeek schedN6 6 := by
  decide

/-- C5 counterexample: the specification's `n = 4` scenario is false as
stated — its schedule does not satisfy all five invariants (team 1 plays
three times in period 1). -/
theorem schedN4_claim_false :
    ¬ (specAllFive schedN4 4 ∧ check_solution schedN4 = Sum.inl "Valid solution") := by
  decide

/-- C5 (amended): the scenario schedule satisfies invariants (a)–(d) but
violates invariant (e) — team 1 appears three times in period 1 — and
`check_solution` nevertheless returns the success marker, because the
code's per-period check does not detect per-team repetitions. -/
theorem schedN4_four_invariants_and_accepted :
    specTeamsExact schedN4 4 ∧ specPairsOnce schedN4 4 ∧ specNoSelfPlay schedN4 ∧
    specOncePerWeek schedN4 4 ∧ ¬ specAtMostTwicePerPeriod schedN4 ∧
    (get_teams1 (schedN4.getD 0 [])).count 1 = 3 ∧
    check_solution schedN4 = Sum.inl "Valid solution" := by
  decide

/-- C6 counterexample: a schedule built for `n = 4` containing team id `5`
for which validation fails, but the returned violation list contains no
team-range violation: since teams `1..5` are all present, the checker
(which takes `n` to be the maximum observed id) reports only the odd-`n`
and week-count violations. -/
theorem schedN4team5_no_range_violation :
    check_solution schedN4team5 = Sum.inr [msgOdd, msgWeeks] ∧
    msgMissing ∉ [msgOdd, msgWeeks] ∧
    5 ∈ get_teams schedN4team5 := by
  decide

lemma le_foldl_max (l : List Nat) (a : Nat) : a ≤ l.foldl max a := by
  induction l generalizing a with
  | nil => exact le_refl _
  | cons y ys ih => exact le_trans (le_max_left a y) (ih (max a y))

lemma mem_le_foldl_max (l : List Nat) : ∀ (a x : Nat), x ∈ l → x ≤ l.foldl max a := by
  induction l with
  | nil => intro a x h; cases h
  | cons y ys ih =>
    intro a x h
    rcases List.mem_cons.1 h with rfl | h
    · exact le_trans (le_max_right a x) (le_foldl_max ys (max a x))
    · exact ih (max a y) x h

lemma le_pyMax_of_mem {l : List Nat} {x : Nat} (hx : x ∈ l) : x ≤ pyMax l :=
  mem_le_foldl_max l 0 x hx

lemma pyMax_le {l : List Nat} {b : Nat} (hb : ∀ x ∈ l, x ≤ b) : pyMax l ≤ b := by
  suffices h : ∀ a : Nat, a ≤ b → l.foldl max a ≤ b from h 0 (Nat.zero_le b)
  induction l with
  | nil => intro a ha; exact ha
  | cons y ys ih =>
    intro a ha
    exact ih (fun x hx => hb x (List.mem_cons_of_mem _ hx)) _
      (max_le ha (hb y (List.mem_cons_self _ _)))

/-- C6 (amended): every schedule built for `n = 4` (two periods of three
two-team matches) that contains a team id `5`, with all ids at most `5`,
fails validation; the violation list always contains the odd-`n` message
(the checker takes `n` to be the maximum observed id, here `5`), though
not necessarily a team-range violation. -/
theorem schedule_with_team5_fails (sol : List (List (List Nat)))
    (hlen : sol.length = 2)
    (hbound : ∀ t ∈ get_teams sol, t ≤ 5)
    (h5 : 5 ∈ get_teams sol) :
    ∃ l, check_solution sol = Sum.inr l ∧ msgOdd ∈ l := by
  have hmax : pyMax (get_teams sol) = 5 :=
    le_antisymm (pyMax_le hbound) (le_pyMax_of_mem h5)
  have hodd : msgOdd ∈ (if pyMax (get_teams sol) % 2 ≠ 0 then [msgOdd] else []) := by
    rw [hmax]
    norm_num
  have hE : msgOdd ∈ fatal_errors sol := by
    unfold fatal_errors
    rw [if_neg (by omega)]
    exact List.mem_append.2 (Or.inl (List.mem_append.2 (Or.inl
      (List.mem_append.2 (Or.inr hodd)))))
  have hlenE : ¬ (fatal_errors sol).length = 0 := by
    intro h0
    rw [List.length_eq_zero] at h0
    rw [h0] at hE
    exact absurd hE (List.not_mem_nil _)
  refine ⟨fatal_errors sol, ?_, hE⟩
  unfold check_solution
  rw [if_neg hlenE]

/-- Witness for `schedule_with_team5_fails` at the concrete schedule
`schedN4team5`. -/
theorem schedule_with_team5_fails_witness :
    ∃ l, check_solution schedN4team5 = Sum.inr l ∧ msgOdd ∈ l :=
  schedule_with_team5_fails schedN4team5 (by decide) (by decide) (by decide)

/-! ## Cardinality encoder (`src/source/SAT/sat_encodings.py`, `at_most_k`)

The Python function builds Z3 formulas over the input variables and fresh
auxiliary counter variables `s[i][j]` (named `"{name}_{i}_{j}"`).  Every
constraint it emits is a clause (a disjunction of literals), so the
embedding represents the output as a list of clauses over a variable type
with one constructor per variable family; the `name` tag only
disambiguates auxiliary families across calls and is dropped. -/

/-- A variable of one `at_most_k` instance: an input `bool_vars[i]` or an
auxiliary counter bit `s[i][j]`. -/
inductive SCVar where
  | inp (i : Nat)
  | aux (i j : Nat)
deriving DecidableEq

/-- A literal: a variable or its negation. -/
inductive SCLit where
  | pos (v : SCVar)
  | neg (v : SCVar)
deriving DecidableEq

abbrev SCClause := List SCLit

/-- Value of a variable under an assignment, split into the input part `β`
and the auxiliary part `α`. -/
def evalVar (β : Nat → Bool) (α : Nat → Nat → Bool) : SCVar → Bool
  | .inp i => β i
  | .aux i j => α i j

def evalLit (β : Nat → Bool) (α : Nat → Nat → Bool) : SCLit → Bool
  | .pos v => evalVar β α v
  | .neg v => !(evalVar β α v)

/-- A clause is satisfied when some literal evaluates to true. -/
def evalClause (β : Nat → Bool) (α : Nat → Nat → Bool) (c : SCClause) : Bool :=
  c.any (evalLit β α)

/-- An assignment satisfies a clause list when it satisfies every clause. -/
def satisfies (β : Nat → Bool) (α : Nat → Nat → Bool) (cs : List SCClause) : Prop :=
  ∀ c ∈ cs, evalClause β α c = true

instance (β : Nat → Bool) (α : Nat → Nat → Bool) (cs : List SCClause) :
    Decidable (satisfies β α cs) := by
  unfold satisfies; infer_instance

@[simp] lemma evalVar_inp (β : Nat → Bool) (α : Nat → Nat → Bool) (i : Nat) :
    evalVar β α (SCVar.inp i) = β i := rfl

@[simp] lemma evalVar_aux (β : Nat → Bool) (α : Nat → Nat → Bool) (i j : Nat) :
    evalVar β α (SCVar.aux i j) = α i j := rfl

lemma evalClause_neg1 (β : Nat → Bool) (α : Nat → Nat → Bool) (v : SCVar) :
    evalClause β α [SCLit.neg v] = true ↔ evalVar β α v = false := by
  cases hv : evalVar β α v <;> simp [evalClause, evalLit, hv]

lemma evalClause_negpos (β : Nat → Bool) (α : Nat → Nat → Bool) (v w : SCVar) :
    evalClause β α [SCLit.neg v, SCLit.pos w] = true ↔
      (evalVar β α v = true → evalVar β α w = true) := by
  cases hv : evalVar β α v <;> cases hw : evalVar β α w <;>
    simp [evalClause, evalLit, hv, hw]

lemma evalClause_negneg (β : Nat → Bool) (α : Nat → Nat → Bool) (v w : SCVar) :
    evalClause β α [SCLit.neg v, SCLit.neg w] = true ↔
      ¬ (evalVar β α v = true ∧ evalVar β α w = true) := by
  cases hv : evalVar β α v <;> cases hw : evalVar β α w <;>
    simp [evalClause, evalLit, hv, hw]

lemma evalClause_negnegpos (β : Nat → Bool) (α : Nat → Nat → Bool) (u v w : SCVar) :
    evalClause β α [SCLit.neg u, SCLit.neg v, SCLit.pos w] = true ↔
      (evalVar β α u = true → evalVar β α v = true → evalVar β α w = true) := by
  cases hu : evalVar β α u <;> cases hv : evalVar β α v <;> cases hw : evalVar β α w <;>
    simp [evalClause, evalLit, hu, hv, hw]

/-- `at_most_k(bool_vars, k, name)` from `src/source/SAT/sat_encodings.py`:
sequential-counter at-most-k over `n = len(bool_vars)` inputs.  The clause
lists mirror the Python appends in order: base case for `i = 0`, the
transition block for each `i` in `1..n-2` (three clauses, then two clauses
per `j` in `1..k-1`), and the final guard on the last variable. -/
def at_most_k (n : Nat) (k : Int) : List SCClause :=
  if n = 0 then []
  else if k ≤ 0 then
    -- sum ≤ 0 → all false
    (List.range n).map (fun i => [SCLit.neg (SCVar.inp i)])
  else if (n : Int) ≤ k then
    -- sum ≤ n → no constraint needed
    []
  else
    [[SCLit.neg (SCVar.inp 0), SCLit.pos (SCVar.aux 0 0)]]
    ++ (List.range' 1 (k.toNat - 1)).map (fun j => [SCLit.neg (SCVar.aux 0 j)])
    ++ ((List.range' 1 (n - 2)).map (fun i =>
         [[SCLit.neg (SCVar.inp i), SCLit.pos (SCVar.aux i 0)],
          [SCLit.neg (SCVar.aux (i - 1) 0), SCLit.pos (SCVar.aux i 0)],
          [SCLit.neg (SCVar.inp i), SCLit.neg (SCVar.aux (i - 1) (k.toNat - 1))]]
         ++ ((List.range' 1 (k.toNat - 1)).map (fun j =>
              [[SCLit.neg (SCVar.inp i), SCLit.neg (SCVar.aux (i - 1) (j - 1)),
                SCLit.pos (SCVar.aux i j)],
               [SCLit.neg (SCVar.aux (i - 1) j), SCLit.pos (SCVar.aux i j)]])).flatten)).flatten
    ++ [[SCLit.neg (SCVar.inp (n - 1)), SCLit.neg (SCVar.aux (n - 2) (k.toNat - 1))]]

lemma at_most_k_eq {n : Nat} {k : Int} (h1 : 1 ≤ k) (h2 : k < (n : Int)) :
    at_most_k n k =
    [[SCLit.neg (SCVar.inp 0), SCLit.pos (SCVar.aux 0 0)]]
    ++ (List.range' 1 (k.toNat - 1)).map (fun j => [SCLit.neg (SCVar.aux 0 j)])
    ++ ((List.range' 1 (n - 2)).map (fun i =>
         [[SCLit.neg (SCVar.inp i), SCLit.pos (SCVar.aux i 0)],
          [SCLit.neg (SCVar.aux (i - 1) 0), SCLit.pos (SCVar.aux i 0)],
          [SCLit.neg (SCVar.inp i), SCLit.neg (SCVar.aux (i - 1) (k.toNat - 1))]]
         ++ ((List.range' 1 (k.toNat - 1)).map (fun j =>
              [[SCLit.neg (SCVar.inp i), SCLit.neg (SCVar.aux (i - 1) (j - 1)),
                SCLit.pos (SCVar.aux i j)],
               [SCLit.neg (SCVar.aux (i - 1) j), SCLit.pos (SCVar.aux i j)]])).flatten)).flatten
    ++ [[SCLit.neg (SCVar.inp (n - 1)), SCLit.neg (SCVar.aux (n - 2) (k.toNat - 1))]] := by
  unfold at_most_k
  rw [if_neg (by omega), if_neg (by omega), if_neg (by omega)]

/-! Membership of the individual clause families in `at_most_k n k`
(for `1 ≤ k < n`). -/

lemma amk_mem_base {n : Nat} {k : Int} (h1 : 1 ≤ k) (h2 : k < (n : Int)) :
    [SCLit.neg (SCVar.inp 0), SCLit.pos (SCVar.aux 0 0)] ∈ at_most_k n k := by
  rw [at_most_k_eq h1 h2]
  exact List.mem_append_left _ (List.mem_append_left _ (List.mem_append_left _
    (List.mem_singleton_self _)))

lemma amk_mem_zero {n : Nat} {k : Int} (h1 : 1 ≤ k) (h2 : k < (n : Int))
    {j : Nat} (hj1 : 1 ≤ j) (hj2 : j < k.toNat) :
    [SCLit.neg (SCVar.aux 0 j)] ∈ at_most_k n k := by
  rw [at_most_k_eq h1 h2]
  refine List.mem_append_left _ (List.mem_append_left _ (List.mem_append_right _ ?_))
  exact List.mem_map.2 ⟨j, List.mem_range'_1.2 ⟨hj1, by omega⟩, rfl⟩

lemma amk_mem_group {n : Nat} {k : Int} (h1 : 1 ≤ k) (h2 : k < (n : Int))
    {i : Nat} (hi1 : 1 ≤ i) (hi2 : i ≤ n - 2) {c : SCClause}
    (hc : c ∈ [[SCLit.neg (SCVar.inp i), SCLit.pos (SCVar.aux i 0)],
          [SCLit.neg (SCVar.aux (i - 1) 0), SCLit.pos (SCVar.aux i 0)],
          [SCLit.neg (SCVar.inp i), SCLit.neg (SCVar.aux (i - 1) (k.toNat - 1))]]
         ++ ((List.range' 1 (k.toNat - 1)).map (fun j =>
              [[SCLit.neg (SCVar.inp i), SCLit.neg (SCVar.aux (i - 1) (j - 1)),
                SCLit.pos (SCVar.aux i j)],
               [SCLit.neg (SCVar.aux (i - 1) j), SCLit.pos (SCVar.aux i j)]])).flatten) :
    c ∈ at_most_k n k := by
  rw [at_most_k_eq h1 h2]
  refine List.mem_append_left _ (List.mem_append_right _ ?_)
  refine List.mem_flatten.2 ⟨_, List.mem_map.2 ⟨i, List.mem_range'_1.2 ⟨hi1, by omega⟩, rfl⟩, hc⟩

lemma amk_mem_final {n : Nat} {k : Int} (h1 : 1 ≤ k) (h2 : k < (n : Int)) :
    [SCLit.neg (SCVar.inp (n - 1)), SCLit.neg (SCVar.aux (n - 2) (k.toNat - 1))] ∈
      at_most_k n k := by
  rw [at_most_k_eq h1 h2]
  exact List.mem_append_right _ (List.mem_singleton_self _)

/-! Counting true inputs. -/

/-- Number of true values among `β 0 .. β (m-1)`. -/
def cnt (β : Nat → Bool) (m : Nat) : Nat :=
  (List.range m).countP β

@[simp] lemma cnt_zero (β : Nat → Bool) : cnt β 0 = 0 := rfl

lemma cnt_succ (β : Nat → Bool) (m : Nat) :
    cnt β (m + 1) = cnt β m + (if β m then 1 else 0) := by
  simp [cnt, List.range_succ, List.countP_append, List.countP_cons]

lemma cnt_one (β : Nat → Bool) : cnt β 1 = if β 0 then 1 else 0 := by
  rw [show (1 : Nat) = 0 + 1 from rfl, cnt_succ, cnt_zero, Nat.zero_add]

lemma cnt_le_self (β : Nat → Bool) (m : Nat) : cnt β m ≤ m := by
  induction m with
  | zero => simp
  | succ m ih => rw [cnt_succ]; split <;> omega

lemma cnt_mono (β : Nat → Bool) {a b : Nat} (h : a ≤ b) : cnt β a ≤ cnt β b := by
  induction h with
  | refl => exact le_refl _
  | step _ ih => rename_i m _; rw [cnt_succ]; split <;> omega

/-- Soundness of the sequential counter: a satisfying assignment has at
most `k` true inputs. -/
lemma amk_sound {β : Nat → Bool} {α : Nat → Nat → Bool} {n : Nat} {k : Int}
    (h1 : 1 ≤ k) (h2 : k < (n : Int)) (h : satisfies β α (at_most_k n k)) :
    (cnt β n : Int) ≤ k := by
  have hKk : (k.toNat : Int) = k := Int.toNat_of_nonneg (by omega)
  set K := k.toNat with hKdef
  have hK1 : 1 ≤ K := by omega
  have hKn : K < n := by omega
  -- clause consequences
  have hbase : β 0 = true → α 0 0 = true := by
    have := h _ (amk_mem_base h1 h2)
    rw [evalClause_negpos] at this
    simpa using this
  have htransA : ∀ i, 1 ≤ i → i ≤ n - 2 → β i = true → α i 0 = true := by
    intro i hi1 hi2 hb
    have := h _ (amk_mem_group h1 h2 hi1 hi2 (List.mem_cons_self _ _))
    rw [evalClause_negpos] at this
    simpa using this (by simpa using hb)
  have htransB : ∀ i, 1 ≤ i → i ≤ n - 2 → ∀ j, j < K → α (i - 1) j = true → α i j = true := by
    intro i hi1 hi2 j hj ha
    rcases Nat.eq_zero_or_pos j with rfl | hjpos
    · have := h _ (amk_mem_group h1 h2 hi1 hi2
        (List.mem_cons_of_mem _ (List.mem_cons_self _ _)))
      rw [evalClause_negpos] at this
      simpa using this (by simpa using ha)
    · have hmem : [SCLit.neg (SCVar.aux (i - 1) j), SCLit.pos (SCVar.aux i j)] ∈
          ((List.range' 1 (K - 1)).map (fun j =>
              [[SCLit.neg (SCVar.inp i), SCLit.neg (SCVar.aux (i - 1) (j - 1)),
                SCLit.pos (SCVar.aux i j)],
               [SCLit.neg (SCVar.aux (i - 1) j), SCLit.pos (SCVar.aux i j)]])).flatten :=
        List.mem_flatten.2 ⟨_, List.mem_map.2 ⟨j, List.mem_range'_1.2 ⟨hjpos, by omega⟩, rfl⟩,
          List.mem_cons_of_mem _ (List.mem_singleton_self _)⟩
      have := h _ (amk_mem_group h1 h2 hi1 hi2 (List.mem_append_right _ hmem))
      rw [evalClause_negpos] at this
      simpa using this (by simpa using ha)
  have htransD : ∀ i, 1 ≤ i → i ≤ n - 2 → ∀ j, 1 ≤ j → j < K →
      β i = true → α (i - 1) (j - 1) = true → α i j = true := by
    intro i hi1 hi2 j hj1 hj2 hb ha
    have hmem : [SCLit.neg (SCVar.inp i), SCLit.neg (SCVar.aux (i - 1) (j - 1)),
          SCLit.pos (SCVar.aux i j)] ∈
        ((List.range' 1 (K - 1)).map (fun j =>
            [[SCLit.neg (SCVar.inp i), SCLit.neg (SCVar.aux (i - 1) (j - 1)),
              SCLit.pos (SCVar.aux i j)],
             [SCLit.neg (SCVar.aux (i - 1) j), SCLit.pos (SCVar.aux i j)]])).flatten :=
      List.mem_flatten.2 ⟨_, List.mem_map.2 ⟨j, List.mem_range'_1.2 ⟨hj1, by omega⟩, rfl⟩,
        List.mem_cons_self _ _⟩
    have := h _ (amk_mem_group h1 h2 hi1 hi2 (List.mem_append_right _ hmem))
    rw [evalClause_negnegpos] at this
    simpa using this (by simpa using hb) (by simpa using ha)
  have htransC : ∀ i, 1 ≤ i → i ≤ n - 1 → β i = true → ¬ α (i - 1) (K - 1) = true := by
    intro i hi1 hi2 hb ha
    rcases Nat.lt_or_ge i (n - 1) with hlt | hge
    · have := h _ (amk_mem_group h1 h2 hi1 (by omega)
        (List.mem_cons_of_mem _ (List.mem_cons_of_mem _ (List.mem_cons_self _ _))))
      rw [evalClause_negneg] at this
      exact this ⟨by simpa using hb, by simpa using ha⟩
    · have hieq : i = n - 1 := by omega
      subst hieq
      have := h _ (amk_mem_final h1 h2)
      rw [evalClause_negneg] at this
      exact this ⟨by simpa using hb, by simpa using ha⟩
  -- the counter invariant: if at least j+1 of the first i+1 inputs are
  -- true then s[i][j] is true
  have inv : ∀ i, i ≤ n - 2 → ∀ j, j < K → j + 1 ≤ cnt β (i + 1) → α i j = true := by
    intro i
    induction i with
    | zero =>
      intro _ j hj hcnt
      rw [Nat.zero_add, cnt_one] at hcnt
      by_cases hb : β 0 = true
      · rw [if_pos hb] at hcnt
        have hj0 : j = 0 := by omega
        subst hj0
        exact hbase hb
      · rw [if_neg hb] at hcnt
        omega
    | succ i ih =>
      intro hi j hj hcnt
      have hi1 : 1 ≤ i + 1 := by omega
      have hii : i ≤ n - 2 := by omega
      rw [cnt_succ] at hcnt
      by_cases hb : β (i + 1) = true
      · rw [if_pos hb] at hcnt
        by_cases hc2 : j + 1 ≤ cnt β (i + 1)
        · have := ih hii j hj hc2
          have hB := htransB (i + 1) hi1 hi j hj
          rw [Nat.add_sub_cancel] at hB
          exact hB this
        · rcases Nat.eq_zero_or_pos j with rfl | hjpos
          · exact htransA (i + 1) hi1 hi hb
          · have hprev : α i (j - 1) = true := ih hii (j - 1) (by omega) (by omega)
            have hD := htransD (i + 1) hi1 hi j hjpos hj hb
            rw [Nat.add_sub_cancel] at hD
            exact hD hprev
      · rw [if_neg hb] at hcnt
        have := ih hii j hj (by omega)
        have hB := htransB (i + 1) hi1 hi j hj
        rw [Nat.add_sub_cancel] at hB
        exact hB this
  -- the running count never exceeds K
  have bnd : ∀ i, i < n → cnt β (i + 1) ≤ K := by
    intro i
    induction i with
    | zero =>
      intro _
      rw [Nat.zero_add, cnt_one]
      split <;> omega
    | succ i ih =>
      intro hi
      have hcnti := ih (by omega)
      rw [cnt_succ]
      by_cases hb : β (i + 1) = true
      · rw [if_pos hb]
        by_contra hcon
        have hge : K ≤ cnt β (i + 1) := by omega
        have hinv : α i (K - 1) = true := inv i (by omega) (K - 1) (by omega) (by omega)
        have hC := htransC (i + 1) (by omega) (by omega) hb
        rw [Nat.add_sub_cancel] at hC
        exact hC hinv
      · rw [if_neg hb]
        omega
  have hfin : cnt β n ≤ K := by
    have := bnd (n - 1) (by omega)
    rwa [show n - 1 + 1 = n by omega] at this
  omega

/-- Completeness of the sequential counter: an assignment of the inputs
with at most `k` true values extends to the auxiliary counter bits. -/
lemma amk_complete {β : Nat → Bool} {n : Nat} {k : Int}
    (h1 : 1 ≤ k) (h2 : k < (n : Int)) (hc : (cnt β n : Int) ≤ k) :
    satisfies β (fun i j => decide (j + 1 ≤ cnt β (i + 1))) (at_most_k n k) := by
  have hKk : (k.toNat : Int) = k := Int.toNat_of_nonneg (by omega)
  set K := k.toNat with hKdef
  have hK1 : 1 ≤ K := by omega
  have hKn : K < n := by omega
  have hcK : cnt β n ≤ K := by omega
  intro c hcmem
  rw [at_most_k_eq h1 h2] at hcmem
  simp only [List.mem_append, List.mem_map, List.mem_flatten, List.mem_range'_1,
    List.mem_singleton, List.mem_cons, List.not_mem_nil, or_false] at hcmem
  rcases hcmem with ((hbase | ⟨j, ⟨hj1, hj2⟩, rfl⟩) | ⟨g, ⟨i, ⟨hi1, hi2⟩, rfl⟩, hg⟩) | hfin
  · subst hbase
    rw [evalClause_negpos]
    intro hb
    simp only [evalVar_inp] at hb
    simp only [evalVar_aux, decide_eq_true_eq, Nat.zero_add]
    rw [cnt_one, if_pos hb]
  · rw [evalClause_neg1]
    simp only [evalVar_aux, decide_eq_false_iff_not, Nat.zero_add]
    rw [cnt_one]
    split <;> omega
  · simp only [List.mem_append, List.mem_cons, List.not_mem_nil, or_false,
      List.mem_flatten, List.mem_map, List.mem_range'_1] at hg
    rcases hg with (hga | hgb | hgc) | hgd
    · subst hga
      rw [evalClause_negpos]
      intro hb
      simp only [evalVar_inp] at hb
      simp only [evalVar_aux, decide_eq_true_eq]
      rw [cnt_succ, if_pos hb]
      omega
    · subst hgb
      rw [evalClause_negpos]
      simp only [evalVar_aux, decide_eq_true_eq]
      intro hprev
      have heq : i - 1 + 1 = i := by omega
      rw [heq] at hprev
      have := cnt_mono β (show i ≤ i + 1 by omega)
      omega
    · subst hgc
      rw [evalClause_negneg]
      rintro ⟨hb, ha⟩
      simp only [evalVar_inp] at hb
      simp only [evalVar_aux, decide_eq_true_eq] at ha
      have heq : i - 1 + 1 = i := by omega
      rw [heq] at ha
      have hstep : K + 1 ≤ cnt β (i + 1) := by
        rw [cnt_succ, if_pos hb]; omega
      have := cnt_mono β (show i + 1 ≤ n by omega)
      omega
    · rcases hgd with ⟨l', ⟨j, ⟨hj1, hj2⟩, rfl⟩, hd⟩
      simp only [List.mem_cons, List.not_mem_nil, or_false] at hd
      rcases hd with hd1 | hd2
      · subst hd1
        rw [evalClause_negnegpos]
        intro hb ha
        simp only [evalVar_inp] at hb
        simp only [evalVar_aux, decide_eq_true_eq] at ha ⊢
        have heq : i - 1 + 1 = i := by omega
        rw [heq] at ha
        rw [cnt_succ, if_pos hb]
        omega
      · subst hd2
        rw [evalClause_negpos]
        simp only [evalVar_aux, decide_eq_true_eq]
        intro hprev
        have heq : i - 1 + 1 = i := by omega
        rw [heq] at hprev
        have := cnt_mono β (show i ≤ i + 1 by omega)
        omega
  · subst hfin
    rw [evalClause_negneg]
    rintro ⟨hb, ha⟩
    simp only [evalVar_inp] at hb
    simp only [evalVar_aux, decide_eq_true_eq] at ha
    have heq : n - 2 + 1 = n - 1 := by omega
    rw [heq] at ha
    have hstep : K + 1 ≤ cnt β n := by
      have heq2 : n - 1 + 1 = n := by omega
      rw [show cnt β n = cnt β (n - 1 + 1) by rw [heq2], cnt_succ, if_pos hb]
      omega
    omega

/-- C2: behaviour of the sequential-counter at-most-k encoder.
For `k ≥ |vars|` no constraints are produced; for `k ≤ 0` exactly the
negations of all inputs are produced; for `1 ≤ k < |vars|` every
satisfying assignment has at most `k` true inputs (soundness), and every
input assignment with at most `k` true values extends to the auxiliary
counter variables (completeness). -/
theorem at_most_k_correct (n : Nat) (k : Int) :
    ((n : Int) ≤ k → at_most_k n k = []) ∧
    (k ≤ 0 → at_most_k n k = (List.range n).map (fun i => [SCLit.neg (SCVar.inp i)])) ∧
    (∀ β α, 1 ≤ k → k < (n : Int) →
      satisfies β α (at_most_k n k) → (cnt β n : Int) ≤ k) ∧
    (∀ β, 1 ≤ k → k < (n : Int) → (cnt β n : Int) ≤ k →
      ∃ α, satisfies β α (at_most_k n k)) := by
  refine ⟨?_, ?_, ?_, ?_⟩
  · intro hk
    unfold at_most_k
    rcases Nat.eq_zero_or_pos n with rfl | hn
    · simp
    · rw [if_neg (by omega), if_neg (by omega), if_pos hk]
  · intro hk
    unfold at_most_k
    rcases Nat.eq_zero_or_pos n with rfl | hn
    · simp
    · rw [if_neg (by omega), if_pos hk]
  · intro β α hk1 hk2 hsat
    exact amk_sound hk1 hk2 hsat
  · intro β hk1 hk2 hcnt
    exact ⟨_, amk_complete hk1 hk2 hcnt⟩

def betaAllFalse : Nat → Bool := fun _ => false

def alphaAllFalse : Nat → Nat → Bool := fun _ _ => false

def betaLastTrue : Nat → Bool := fun i => i == 2

/-- Witness for `at_most_k_correct`: each conjunct applied at concrete
inputs. -/
theorem at_most_k_correct_witness :
    at_most_k 2 3 = [] ∧
    at_most_k 2 (-1) = (List.range 2).map (fun i => [SCLit.neg (SCVar.inp i)]) ∧
    (cnt betaAllFalse 3 : Int) ≤ 1 ∧
    (∃ α, satisfies betaLastTrue α (at_most_k 3 1)) :=
  ⟨(at_most_k_correct 2 3).1 (by decide),
   (at_most_k_correct 2 (-1)).2.1 (by decide),
   (at_most_k_correct 3 1).2.2.1 betaAllFalse alphaAllFalse (by decide) (by decide) (by decide),
   (at_most_k_correct 3 1).2.2.2 betaLastTrue (by decide) (by decide) (by decide)⟩

/-- C7 counterexample: called on an empty variable list with a negative
bound, `at_most_k` does not fail — its first branch (`n == 0`) returns the
empty constraint list before the bound is ever examined, and the code has
no `DomainError` at all. -/
theorem at_most_k_empty_neg_bound : at_most_k 0 (-1) = [] := by decide

/-- C7 (amended): with an empty variable list and a negative bound,
`at_most_k` returns the empty constraint list; no error is raised. -/
theorem at_most_k_empty_neg_returns_nil (k : Int) (_hk : k < 0) : at_most_k 0 k = [] := by
  unfold at_most_k
  simp

/-- Witness for `at_most_k_empty_neg_returns_nil` at `k = -2`. -/
theorem at_most_k_empty_neg_returns_nil_witness : at_most_k 0 (-2) = [] :=
  at_most_k_empty_neg_returns_nil (-2) (by decide)

/-! ## One-hot comparators (`src/source/SAT/sat_encodings.py`)

`equal_onehot`, `less_onehot_strict` and `lex_less_onehot_seq` build Z3
formulas over boolean variables; under a fixed assignment every variable
is a concrete boolean, so the embedding evaluates the same formulas over
`List Bool` / `List (List Bool)` directly. -/

/-- `equal_onehot(x, y)`: elementwise equivalence over `zip(x, y)`. -/
def equal_onehot (x y : List Bool) : Bool :=
  (x.zip y).all (fun p => p.1 == p.2)

/-- `less_onehot_strict(x, y)`: `Or_i (x[i] ∧ Or(y[i+1:]))` for
`i ∈ range(len(x) - 1)`. -/
def less_onehot_strict (x y : List Bool) : Bool :=
  (List.range (x.length - 1)).any (fun i => x.getD i false && (y.drop (i + 1)).any (fun b => b))

/-- `lex_less_onehot_seq(X, Y)`: `Or_k (prefix_eq(0..k-1) ∧ X[k] < Y[k])`. -/
def lex_less_onehot_seq (X Y : List (List Bool)) : Bool :=
  (List.range X.length).any (fun k =>
    ((List.range k).all (fun i => equal_onehot (X.getD i []) (Y.getD i []))) &&
    less_onehot_strict (X.getD k []) (Y.getD k []))

/-- A one-hot vector: exactly one entry is true. -/
def isOneHot (x : List Bool) : Prop := x.count true = 1

instance (x : List Bool) : Decidable (isOneHot x) := by
  unfold isOneHot; infer_instance

/-- The selected index of a one-hot vector (`index(x)`). -/
def sel (x : List Bool) : Nat := x.indexOf true

lemma onehot_getD {x : List Bool} (h : isOneHot x) :
    ∀ i, i < x.length → (x.getD i false = true ↔ i = sel x) := by
  induction x with
  | nil => simp [isOneHot] at h
  | cons b xs ih =>
    intro i hi
    unfold isOneHot at h
    rw [List.count_cons] at h
    cases b with
    | true =>
      have hxs : xs.count true = 0 := by simpa using h
      have hsel : sel (true :: xs) = 0 := by simp [sel]
      cases i with
      | zero => simp [hsel]
      | succ i =>
        rw [hsel]
        simp only [List.getD_cons_succ]
        constructor
        · intro hg
          exfalso
          have hi' : i < xs.length := by simpa using hi
          have hmem : xs[i] ∈ xs := List.getElem_mem _
          rw [List.getD_eq_getElem _ _ hi'] at hg
          rw [hg] at hmem
          rw [List.count_eq_zero] at hxs
          exact hxs hmem
        · omega
    | false =>
      have hxs : xs.count true = 1 := by simpa using h
      have hsel : sel (false :: xs) = sel xs + 1 := by
        simp only [sel]
        exact List.indexOf_cons_ne (a := true) xs (by simp)
      cases i with
      | zero => simp [hsel, List.getD_cons_zero]
      | succ i =>
        rw [hsel]
        simp only [List.getD_cons_succ]
        rw [ih hxs i (by simpa using hi)]
        omega

lemma sel_lt_length {x : List Bool} (h : isOneHot x) : sel x < x.length := by
  rw [sel, List.indexOf_lt_length]
  have hpos : 0 < x.count true := by unfold isOneHot at h; omega
  exact List.count_pos_iff.1 hpos

lemma sel_getD {x : List Bool} (h : isOneHot x) : x.getD (sel x) false = true :=
  (onehot_getD h (sel x) (sel_lt_length h)).2 rfl

lemma equal_onehot_iff {x y : List Bool} (hlen : x.length = y.length) :
    (equal_onehot x y = true ↔ x = y) := by
  induction x generalizing y with
  | nil =>
    cases y with
    | nil => simp [equal_onehot]
    | cons b ys => simp at hlen
  | cons a xs ih =>
    cases y with
    | nil => simp at hlen
    | cons b ys =>
      have hstep : equal_onehot (a :: xs) (b :: ys) = ((a == b) && equal_onehot xs ys) := rfl
      rw [hstep, Bool.and_eq_true, beq_iff_eq, ih (by simpa using hlen), List.cons_eq_cons]

lemma onehot_eq_iff_sel {x y : List Bool} (hx : isOneHot x) (hy : isOneHot y)
    (hlen : x.length = y.length) : x = y ↔ sel x = sel y := by
  constructor
  · rintro rfl; rfl
  · intro hs
    apply List.ext_getElem hlen
    intro i h1 h2
    have e1 := onehot_getD hx i h1
    have e2 := onehot_getD hy i h2
    have hgd : x.getD i false = y.getD i false := by
      by_cases hsx : i = sel x
      · rw [e1.2 hsx, e2.2 (by omega)]
      · have hx0 : x.getD i false = false := by
          cases hv : x.getD i false
          · rfl
          · exact absurd (e1.1 hv) hsx
        have hy0 : y.getD i false = false := by
          cases hv : y.getD i false
          · rfl
          · exact absurd (e2.1 hv) (by omega)
        rw [hx0, hy0]
    rwa [List.getD_eq_getElem _ _ h1, List.getD_eq_getElem _ _ h2] at hgd

lemma true_mem_drop_iff {y : List Bool} (hy : isOneHot y) (m : Nat) :
    true ∈ y.drop m ↔ m ≤ sel y := by
  constructor
  · intro hmem
    rw [List.mem_iff_getElem] at hmem
    obtain ⟨i, hi, hgi⟩ := hmem
    have hlen : m + i < y.length := by
      rw [List.length_drop] at hi; omega
    rw [List.getElem_drop] at hgi
    have := (onehot_getD hy (m + i) hlen).1 (by rw [List.getD_eq_getElem _ _ hlen]; exact hgi)
    omega
  · intro hle
    have hs := sel_lt_length hy
    rw [List.mem_iff_getElem]
    refine ⟨sel y - m, by rw [List.length_drop]; omega, ?_⟩
    rw [List.getElem_drop]
    have heq : m + (sel y - m) = sel y := by omega
    have := sel_getD hy
    rw [List.getD_eq_getElem _ _ hs] at this
    simp only [heq]
    exact this

lemma less_onehot_strict_iff {x y : List Bool} (hx : isOneHot x) (hy : isOneHot y)
    (hlen : x.length = y.length) : (less_onehot_strict x y = true ↔ sel x < sel y) := by
  unfold less_onehot_strict
  rw [List.any_eq_true]
  constructor
  · rintro ⟨i, hi, hcond⟩
    rw [List.mem_range] at hi
    rw [Bool.and_eq_true] at hcond
    obtain ⟨h1, h2⟩ := hcond
    have hix : i = sel x := (onehot_getD hx i (by omega)).1 h1
    rw [List.any_eq_true] at h2
    obtain ⟨b, hb, hbt⟩ := h2
    have hbtrue : b = true := hbt
    subst hbtrue
    have := (true_mem_drop_iff hy (i + 1)).1 hb
    omega
  · intro hlt
    have hsx := sel_lt_length hx
    have hsy := sel_lt_length hy
    refine ⟨sel x, by rw [List.mem_range]; omega, ?_⟩
    rw [Bool.and_eq_true]
    refine ⟨sel_getD hx, ?_⟩
    rw [List.any_eq_true]
    exact ⟨true, (true_mem_drop_iff hy (sel x + 1)).2 (by omega), rfl⟩

/-- Indexed characterisation of strict lexicographic order on equal-length
lists. -/
lemma lex_iff_exists {as bs : List Nat} (hlen : as.length = bs.length) :
    List.Lex (· < ·) as bs ↔
      ∃ k, k < as.length ∧ (∀ i, i < k → as.getD i 0 = bs.getD i 0) ∧
        as.getD k 0 < bs.getD k 0 := by
  induction as generalizing bs with
  | nil =>
    cases bs with
    | nil => constructor
             · intro h; cases h
             · rintro ⟨k, hk, _, _⟩; simp at hk
    | cons b bs => simp at hlen
  | cons a as ih =>
    cases bs with
    | nil => simp at hlen
    | cons b bs =>
      constructor
      · intro h
        cases h with
        | rel hr => exact ⟨0, by simp, fun i hi => absurd hi (by omega), hr⟩
        | cons ht =>
          obtain ⟨k, hk, hpre, hlt⟩ := (ih (by simpa using hlen)).1 ht
          refine ⟨k + 1, by simpa using hk, ?_, by simpa using hlt⟩
          intro i hi
          cases i with
          | zero => rfl
          | succ i => simpa using hpre i (by omega)
      · rintro ⟨k, hk, hpre, hlt⟩
        cases k with
        | zero => exact List.Lex.rel (by simpa using hlt)
        | succ k =>
          have hab : a = b := by simpa using hpre 0 (by omega)
          subst hab
          refine List.Lex.cons ((ih (by simpa using hlen)).2 ⟨k, by simpa using hk, ?_, by simpa using hlt⟩)
          intro i hi
          simpa using hpre (i + 1) (by omega)

lemma getD_map_sel (X : List (List Bool)) (i : Nat) (hi : i < X.length) :
    (X.map sel).getD i 0 = sel (X.getD i []) := by
  rw [List.getD_eq_getElem _ _ (by simpa using hi), List.getD_eq_getElem _ _ hi,
    List.getElem_map]

lemma mem_getD {α : Type} (l : List α) (i : Nat) (d : α) (hi : i < l.length) :
    l.getD i d ∈ l := by
  rw [List.getD_eq_getElem _ _ hi]
  exact List.getElem_mem _

/-- C4: under any assignment making every vector of `X` and `Y` one-hot
(with matching lengths position by position), `lex_less_onehot_seq X Y`
is true exactly when the sequence of selected indices of `X` is strictly
lexicographically smaller than that of `Y`. -/
theorem lex_less_onehot_seq_correct (X Y : List (List Bool))
    (hlen : X.length = Y.length)
    (hX : ∀ x ∈ X, isOneHot x) (hY : ∀ y ∈ Y, isOneHot y)
    (hpair : ∀ k, k < X.length → (X.getD k []).length = (Y.getD k []).length) :
    (lex_less_onehot_seq X Y = true ↔
      List.Lex (· < ·) (X.map sel) (Y.map sel)) := by
  rw [lex_iff_exists (by simp [hlen])]
  unfold lex_less_onehot_seq
  rw [List.any_eq_true]
  constructor
  · rintro ⟨k, hkmem, hcond⟩
    rw [List.mem_range] at hkmem
    rw [Bool.and_eq_true] at hcond
    obtain ⟨hall, hless⟩ := hcond
    rw [List.all_eq_true] at hall
    refine ⟨k, by simpa using hkmem, ?_, ?_⟩
    · intro i hi
      have hik : i < X.length := by omega
      have heq : X.getD i [] = Y.getD i [] :=
        (equal_onehot_iff (hpair i hik)).1 (hall i (List.mem_range.2 hi))
      rw [getD_map_sel X i hik, getD_map_sel Y i (by omega), heq]
    · have hx1 : isOneHot (X.getD k []) := hX _ (mem_getD X k [] hkmem)
      have hy1 : isOneHot (Y.getD k []) := hY _ (mem_getD Y k [] (by omega))
      rw [getD_map_sel X k hkmem, getD_map_sel Y k (by omega)]
      exact (less_onehot_strict_iff hx1 hy1 (hpair k hkmem)).1 hless
  · rintro ⟨k, hk, hpre, hlt⟩
    rw [List.length_map] at hk
    refine ⟨k, List.mem_range.2 hk, ?_⟩
    rw [Bool.and_eq_true]
    constructor
    · rw [List.all_eq_true]
      intro i hi
      rw [List.mem_range] at hi
      have hik : i < X.length := by omega
      have hsel : sel (X.getD i []) = sel (Y.getD i []) := by
        have := hpre i hi
        rwa [getD_map_sel X i hik, getD_map_sel Y i (by omega)] at this
      have hx1 : isOneHot (X.getD i []) := hX _ (mem_getD X i [] hik)
      have hy1 : isOneHot (Y.getD i []) := hY _ (mem_getD Y i [] (by omega))
      exact (equal_onehot_iff (hpair i hik)).2
        ((onehot_eq_iff_sel hx1 hy1 (hpair i hik)).2 hsel)
    · have hx1 : isOneHot (X.getD k []) := hX _ (mem_getD X k [] hk)
      have hy1 : isOneHot (Y.getD k []) := hY _ (mem_getD Y k [] (by omega))
      rw [getD_map_sel X k hk, getD_map_sel Y k (by omega)] at hlt
      exact (less_onehot_strict_iff hx1 hy1 (hpair k hk)).2 hlt

/-- Witness for `lex_less_onehot_seq_correct` at a concrete pair of
one-hot sequences. -/
theorem lex_less_onehot_seq_correct_witness :
    lex_less_onehot_seq [[true, false]] [[false, true]] = true ↔
      List.Lex (· < ·) ([[true, false]].map sel) ([[false, true]].map sel) :=
  lex_less_onehot_seq_correct [[true, false]] [[false, true]] (by decide) (by decide)
    (by decide) (by
      intro k hk
      have hk1 : k < 1 := by simpa using hk
      have hk0 : k = 0 := by omega
      subst hk0
      decide)

/-- C10: the encoded strict lexicographic order is irreflexive — on any
sequence of one-hot vectors, `lex_less_onehot_seq X X` evaluates to
false. -/
theorem lex_less_onehot_seq_irrefl (X : List (List Bool))
    (hX : ∀ x ∈ X, isOneHot x) : lex_less_onehot_seq X X = false := by
  unfold lex_less_onehot_seq
  rw [List.any_eq_false]
  intro k hk
  rw [List.mem_range] at hk
  have hz : isOneHot (X.getD k []) := hX _ (mem_getD X k [] hk)
  have hfalse : less_onehot_strict (X.getD k []) (X.getD k []) = false := by
    cases hv : less_onehot_strict (X.getD k []) (X.getD k [])
    · rfl
    · have := (less_onehot_strict_iff hz hz rfl).1 hv
      omega
  simp only [Bool.and_eq_true, not_and]
  intro _
  rw [hfalse]
  simp

/-- Witness for `lex_less_onehot_seq_irrefl` at a concrete one-hot
sequence. -/
theorem lex_less_onehot_seq_irrefl_witness :
    lex_less_onehot_seq [[false, true], [true, false]] [[false, true], [true, false]] = false :=
  lex_less_onehot_seq_irrefl [[false, true], [true, false]] (by decide)

/-! ## Decision-output decoder
(`src/source/SAT/solve_sat_instance.py`, `parse_decision_output`)

The Python decoder receives the PySAT model (a list of signed literal
ids), the layout name (the string `"ha"` or `"rr"` — `solve_sat_instance`
passes exactly these; any other string would fall through and return the
zero-initialised matrix, a type-heterogeneous value that is unreachable
from the callers and not modelled), the variable-name → DIMACS-id map,
and for RR the precomputed tables.  It fills `schedule[p][w]` slot by
slot and raises `RuntimeError` at the first unresolvable slot, so no
partial schedule ever escapes; the embedding returns `Except.error` at
the first unresolvable slot in the same iteration order. -/

inductive Layout where
  | ha
  | rr
deriving DecidableEq

/-- Python f-string `f"{pre}_{a}_{b}_{c}"`. -/
def mkVarName (pre : String) (a b c : Nat) : String :=
  pre ++ "_" ++ toString a ++ "_" ++ toString b ++ "_" ++ toString c

/-- `model_set = set(v for v in model_values if v > 0)` membership. -/
def inModelSet (model_values : List Int) (id : Nat) : Bool :=
  model_values.any (fun v => decide (0 < v) && (v == (id : Int)))

/-- `varmap.get(name)` followed by the `id in model_set` test. -/
def lookupTrue (varmap : String → Option Nat) (model_values : List Int) (s : String) : Bool :=
  match varmap s with
  | some id => inModelSet model_values id
  | none => false

/-- HA slot resolution: the Python loop keeps the first `t` whose `H`
(resp. `A`) variable exists and is true, and returns `t + 1`. -/
def resolveHA (varmap : String → Option Nat) (model_values : List Int)
    (pre : String) (p w n : Nat) : Option Nat :=
  ((List.range n).find?
    (fun t => lookupTrue varmap model_values (mkVarName pre (p + 1) (w + 1) (t + 1)))).map
    (fun t => t + 1)

/-- RR slot resolution: the first match index `k` whose `pos` variable is
true. -/
def resolveRR (varmap : String → Option Nat) (model_values : List Int)
    (w p P : Nat) : Option Nat :=
  (List.range P).find?
    (fun k => lookupTrue varmap model_values (mkVarName "pos" (w + 1) (p + 1) (k + 1)))

/-- The `[home, away]` entry of slot `(p, w)`, or `none` when the slot is
unresolvable.  For RR the table lookups `Home[w][k]`, `Away[w][k]` use
`getD` (the Python indexing is always in range for tables produced by the
model builders). -/
def slot_value (model_values : List Int) (model : Layout) (n : Nat)
    (varmap : String → Option Nat) (Home Away : List (List Nat)) (p w : Nat) :
    Option (List Nat) :=
  match model with
  | .ha =>
    match resolveHA varmap model_values "H" p w n, resolveHA varmap model_values "A" p w n with
    | some h, some a => some [h, a]
    | _, _ => none
  | .rr =>
    (resolveRR varmap model_values w p (n / 2)).map
      (fun k => [(Home.getD w []).getD k 0, (Away.getD w []).getD k 0])

/-- The `RuntimeError` message raised for an unresolvable slot. -/
def slotErr (model : Layout) (p w : Nat) : String :=
  match model with
  | .ha => "Missing assignment for period=" ++ toString (p + 1) ++ ", week=" ++ toString (w + 1)
  | .rr => "No true pos var for week=" ++ toString (w + 1) ++ ", period=" ++ toString (p + 1)

/-- Sequence a list of fallible computations, stopping at the first
error (the effect of the Python loop raising mid-way: nothing partial is
returned). -/
def collectE {α β : Type} (f : α → Except String β) : List α → Except String (List β)
  | [] => Except.ok []
  | x :: xs =>
    match f x with
    | Except.error e => Except.error e
    | Except.ok b =>
      match collectE f xs with
      | Except.error e => Except.error e
      | Except.ok bs => Except.ok (b :: bs)

/-- `parse_decision_output` from `src/source/SAT/solve_sat_instance.py`:
`schedule[p][w] = [home, away]` for `p ∈ range(n // 2)`,
`w ∈ range(n - 1)`, failing at the first unresolvable slot. -/
def parse_decision_output (model_values : List Int) (model : Layout) (n : Nat)
    (varmap : String → Option Nat) (Home Away : List (List Nat)) :
    Except String (List (List (List Nat))) :=
  collectE (fun p =>
    collectE (fun w =>
      match slot_value model_values model n varmap Home Away p w with
      | some hw => Except.ok hw
      | none => Except.error (slotErr model p w)) (List.range (n - 1)))
    (List.range (n / 2))

lemma collectE_ok_of {α β : Type} (f : α → Except String β) (g : α → β) (l : List α)
    (h : ∀ x ∈ l, f x = Except.ok (g x)) : collectE f l = Except.ok (l.map g) := by
  induction l with
  | nil => rfl
  | cons x xs ih =>
    rw [List.map_cons]
    simp only [collectE]
    rw [h x (List.mem_cons_self _ _), ih (fun y hy => h y (List.mem_cons_of_mem _ hy))]

lemma collectE_error_of {α β : Type} (f : α → Except String β) (l : List α) (x : α)
    (hx : x ∈ l) (hfail : ∀ b, f x ≠ Except.ok b) :
    ∃ e, collectE f l = Except.error e := by
  induction l with
  | nil => cases hx
  | cons y ys ih =>
    simp only [collectE]
    rcases List.mem_cons.1 hx with rfl | hmem
    · cases hfy : f x with
      | error e => exact ⟨e, rfl⟩
      | ok b => exact absurd hfy (hfail b)
    · cases hfy : f y with
      | error e => exact ⟨e, rfl⟩
      | ok b =>
        obtain ⟨e, he⟩ := ih hmem
        rw [he]
        exact ⟨e, rfl⟩

/-- C8: if some slot of the requested layout has no resolvable value,
the decoder returns an error (so the failure propagates and no partial
schedule is produced); if every slot resolves, it returns the full
`schedule[period][week] = [home, away]` matrix. -/
theorem parse_decision_output_spec (model_values : List Int) (model : Layout) (n : Nat)
    (varmap : String → Option Nat) (Home Away : List (List Nat)) :
    ((∃ p, p < n / 2 ∧ ∃ w, w < n - 1 ∧
        slot_value model_values model n varmap Home Away p w = none) →
      ∃ e, parse_decision_output model_values model n varmap Home Away = Except.error e) ∧
    ((∀ p, p < n / 2 → ∀ w, w < n - 1 →
        (slot_value model_values model n varmap Home Away p w).isSome) →
      parse_decision_output model_values model n varmap Home Away =
        Except.ok ((List.range (n / 2)).map (fun p => (List.range (n - 1)).map (fun w =>
          (slot_value model_values model n varmap Home Away p w).getD [])))) := by
  constructor
  · rintro ⟨p, hp, w, hw, hnone⟩
    unfold parse_decision_output
    have hinner := collectE_error_of
      (fun w => match slot_value model_values model n varmap Home Away p w with
        | some hw => Except.ok hw
        | none => Except.error (slotErr model p w))
      (List.range (n - 1)) w (List.mem_range.2 hw)
      (by intro b hb; simp only [hnone] at hb; exact Except.noConfusion hb)
    obtain ⟨e, he⟩ := hinner
    apply collectE_error_of _ _ p (List.mem_range.2 hp)
    intro b hb
    rw [he] at hb
    exact Except.noConfusion hb
  · intro hall
    unfold parse_decision_output
    apply collectE_ok_of
    intro p hp
    apply collectE_ok_of
    intro w hw
    have hsome := hall p (List.mem_range.1 hp) w (List.mem_range.1 hw)
    obtain ⟨v, hv⟩ := Option.isSome_iff_exists.1 hsome
    rw [hv]
    rfl

/-- The variable map for the witness: one slot (`n = 2`), with team 1 at
home and team 2 away. -/
def varmapW : String → Option Nat := fun s =>
  if s = "H_1_1_1" then some 1 else if s = "A_1_1_2" then some 2 else none

/-- Witness for `parse_decision_output_spec`: an unresolvable RR instance
(empty variable map) errors, and a fully resolvable HA instance decodes
to the complete schedule. -/
theorem parse_decision_output_spec_witness :
    (∃ e, parse_decision_output [1, 2] Layout.rr 2 (fun _ => none) [[0]] [[0]] =
      Except.error e) ∧
    parse_decision_output [1, 2] Layout.ha 2 varmapW [] [] = Except.ok [[[1, 2]]] := by
  constructor
  · exact (parse_decision_output_spec [1, 2] Layout.rr 2 (fun _ => none) [[0]] [[0]]).1
      ⟨0, by decide, 0, by decide, by decide⟩
  · have h := (parse_decision_output_spec [1, 2] Layout.ha 2 varmapW [] []).2 (by decide)
    rw [h]
    rfl

/-! ## Circle-method tables (`src/source/SAT/sat_model_final.py`,
`circle_tables`; the same formulas build `Home`/`Away` in
`src/source/SAT/sat_model_rr.py`, without the first-row swap)

`circle_tables(n)` first fills, for week `w ∈ range(n-1)` and slot
`p ∈ range(n//2)` (0-based), the pair `(n, w+1)` at `p = 0` and
`((w+p) % (n-1) + 1, ((n-1)-p+w) % (n-1) + 1)` otherwise, storing the
larger id in `A` and the smaller in `B`; it then swaps, in every week
`w ≥ 1`, slot 0 with the first slot `r ≥ 1` whose pair contains team
`n - w`.  (`sat_model_rr.SATModelRR.build_solver` computes exactly the
unswapped tables with 1-based loop indices.) -/

/-- The raw (pre-canonicalisation) pair of week `w`, slot `p`. -/
def ctPair (n w p : Nat) : Nat × Nat :=
  if p = 0 then (n, w + 1)
  else ((w + p) % (n - 1) + 1, ((n - 1) - p + w) % (n - 1) + 1)

/-- Row `w` of the primary table before the swap (larger id of each pair). -/
def rowA (n w : Nat) : List Nat :=
  (List.range (n / 2)).map (fun p => max (ctPair n w p).1 (ctPair n w p).2)

/-- Row `w` of the secondary table before the swap (smaller id). -/
def rowB (n w : Nat) : List Nat :=
  (List.range (n / 2)).map (fun p => min (ctPair n w p).1 (ctPair n w p).2)

/-- The swap search
`next(r for r in range(1, P) if A[w][r] == tgt or B[w][r] == tgt)` with
`tgt = n - w`, as an optional index (`next` raises `StopIteration` when
no such `r` exists; C9 proves the search always succeeds for even
`n ≥ 4`). -/
def swapRow (n w : Nat) : Option Nat :=
  (List.range' 1 (n / 2 - 1)).find?
    (fun r => ((rowA n w).getD r 0 == n - w) || ((rowB n w).getD r 0 == n - w))

/-- The simultaneous Python swap `l[0], l[r] = l[r], l[0]`. -/
def listSwap (l : List Nat) (r : Nat) : List Nat :=
  (l.set 0 (l.getD r 0)).set r (l.getD 0 0)

/-- The primary table of `circle_tables` (swap applied to weeks `w ≥ 1`;
in the unreachable case where the search fails — it never does for the
even `n ≥ 4` the callers pass, see C9 — the row is left unswapped where
Python would raise `StopIteration`). -/
def circleA (n : Nat) : List (List Nat) :=
  (List.range (n - 1)).map (fun w =>
    if w = 0 then rowA n w
    else match swapRow n w with
      | some r => listSwap (rowA n w) r
      | none => rowA n w)

/-- The secondary table of `circle_tables`. -/
def circleB (n : Nat) : List (List Nat) :=
  (List.range (n - 1)).map (fun w =>
    if w = 0 then rowB n w
    else match swapRow n w with
      | some r => listSwap (rowB n w) r
      | none => rowB n w)

/-- `circle_tables(n)` returns the pair `(A, B)`. -/
def circle_tables (n : Nat) : List (List Nat) × List (List Nat) :=
  (circleA n, circleB n)

lemma ctPair_zero (n w : Nat) : ctPair n w 0 = (n, w + 1) := rfl

lemma ctPair_pos (n w p : Nat) (hp : 0 < p) :
    ctPair n w p = ((w + p) % (n - 1) + 1, ((n - 1) - p + w) % (n - 1) + 1) := by
  unfold ctPair
  rw [if_neg (by omega)]

lemma getD_map_range {α : Type} (f : Nat → α) (d : α) {P p : Nat} (hp : p < P) :
    ((List.range P).map f).getD p d = f p := by
  rw [List.getD_eq_getElem _ _ (by simpa using hp), List.getElem_map, List.getElem_range]

/-- Unique solution of `(w + p) % m = r` for `p < m`. -/
lemma mod_shift_iff {m w r p : Nat} (hw : w < m) (hr : r < m) (hp : p < m) :
    ((w + p) % m = r ↔ p = (r + (m - w)) % m) := by
  have hm : 0 < m := by omega
  constructor
  · intro h
    rcases Nat.lt_or_ge (w + p) m with hlt | hge
    · have hr' : r = w + p := by rw [Nat.mod_eq_of_lt hlt] at h; omega
      have hsum : r + (m - w) = p + m := by omega
      rw [hsum, Nat.add_mod_right, Nat.mod_eq_of_lt hp]
    · have h2m : w + p < 2 * m := by omega
      have hmod : (w + p) % m = w + p - m := by
        rw [Nat.mod_eq_sub_mod hge, Nat.mod_eq_of_lt (by omega)]
      have hr' : r = w + p - m := by omega
      have hsum : r + (m - w) = p := by omega
      rw [hsum, Nat.mod_eq_of_lt hp]
  · intro h
    subst h
    have h1 : (w + (r + (m - w)) % m) % m = (w + (r + (m - w))) % m := by
      conv_lhs => rw [Nat.add_mod]
      rw [Nat.mod_mod_of_dvd _ dvd_rfl, ← Nat.add_mod]
    rw [h1, show w + (r + (m - w)) = r + m by omega, Nat.add_mod_right,
      Nat.mod_eq_of_lt hr]

/-- `(r + (m - w)) % m = 0` exactly when `r = w` (both below `m`). -/
lemma mod_zero_iff {m w r : Nat} (hw : w < m) (hr : r < m) :
    ((r + (m - w)) % m = 0 ↔ r = w) := by
  constructor
  · intro h
    have hs2 : r + (m - w) < 2 * m := by omega
    have hpos : 0 < r + (m - w) := by omega
    have hsm : r + (m - w) = m := by
      rcases Nat.lt_or_ge (r + (m - w)) m with hlt | hge
      · rw [Nat.mod_eq_of_lt hlt] at h; omega
      · rw [Nat.mod_eq_sub_mod hge, Nat.mod_eq_of_lt (by omega)] at h
        omega
    omega
  · intro h
    subst h
    rw [show r + (m - r) = m by omega, Nat.mod_self]

lemma count_range' (a s : Nat) : ∀ len : Nat,
    (List.range' s len).count a = if s ≤ a ∧ a < s + len then 1 else 0 := by
  intro len
  induction len generalizing s with
  | zero =>
    rw [show List.range' s 0 = [] from rfl, List.count_nil, if_neg (by omega)]
  | succ len ih =>
    rw [List.range'_succ, List.count_cons, ih (s + 1)]
    simp only [beq_iff_eq]
    split_ifs <;> omega

lemma bool_eq_of_iff {a b : Bool} (h : a = true ↔ b = true) : a = b := by
  cases a <;> cases b <;> simp_all

lemma countP_false_nil (l : List Nat) : l.countP (fun _ => false) = 0 := by
  simp

lemma count_map_range (f : Nat → Nat) (t P : Nat) :
    ((List.range P).map f).count t = (List.range P).countP (fun p => f p == t) := by
  rw [List.count_eq_countP, List.countP_map]
  rfl

lemma range_eq_cons_range' {P : Nat} (hP : 0 < P) :
    List.range P = 0 :: List.range' 1 (P - 1) := by
  rw [List.range_eq_range']
  conv_lhs => rw [show P = (P - 1) + 1 by omega]
  rw [List.range'_succ]

lemma maxmin_indicator (a b t : Nat) :
    ((if (max a b == t) = true then 1 else 0) + (if (min a b == t) = true then 1 else 0) : Nat) =
    (if (a == t) = true then 1 else 0) + (if (b == t) = true then 1 else 0) := by
  rcases le_total a b with h | h
  · rw [max_eq_right h, min_eq_left h]
    exact Nat.add_comm _ _
  · rw [max_eq_left h, min_eq_right h]

lemma countP_sum_congr (l : List Nat) (f g f' g' : Nat → Bool)
    (h : ∀ x ∈ l, ((if f x then 1 else 0) + (if g x then 1 else 0) : Nat) =
      (if f' x then 1 else 0) + (if g' x then 1 else 0)) :
    l.countP f + l.countP g = l.countP f' + l.countP g' := by
  induction l with
  | nil => simp
  | cons x xs ih =>
    have hx := h x (List.mem_cons_self _ _)
    have hxs := ih (fun y hy => h y (List.mem_cons_of_mem _ hy))
    rw [List.countP_cons, List.countP_cons, List.countP_cons, List.countP_cons]
    omega

/-- Every team `1..n` occurs exactly once among the entries of an
(unswapped) week row pair: the circle method yields a weekly
permutation. -/
lemma week_count {n : Nat} (hn2 : n % 2 = 0) (hn4 : 4 ≤ n) {w : Nat} (hw : w < n - 1)
    {t : Nat} (ht1 : 1 ≤ t) (ht2 : t ≤ n) :
    (rowA n w).count t + (rowB n w).count t = 1 := by
  have hmP : n - 1 = 2 * (n / 2) - 1 := by omega
  have hP2 : 2 ≤ n / 2 := by omega
  have hm0 : 0 < n - 1 := by omega
  have hwm : w < n - 1 := hw
  rw [rowA, rowB, count_map_range, count_map_range]
  have hsum := countP_sum_congr (List.range (n / 2))
    (fun p => max (ctPair n w p).1 (ctPair n w p).2 == t)
    (fun p => min (ctPair n w p).1 (ctPair n w p).2 == t)
    (fun p => (ctPair n w p).1 == t)
    (fun p => (ctPair n w p).2 == t)
    (fun p _ => maxmin_indicator (ctPair n w p).1 (ctPair n w p).2 t)
  rw [hsum]
  rw [range_eq_cons_range' (by omega), List.countP_cons, List.countP_cons]
  rcases Nat.lt_or_ge t n with htn | htn
  · -- t ≤ n - 1: exactly one of the four pieces contributes
    have hrm : t - 1 < n - 1 := by omega
    have hqlt : (t - 1 + (n - 1 - w)) % (n - 1) < n - 1 := Nat.mod_lt _ (by omega)
    set q := (t - 1 + (n - 1 - w)) % (n - 1) with hqdef
    have hIA : ((ctPair n w 0).1 == t) = false := by
      rw [ctPair_zero]
      exact beq_eq_false_iff_ne.2 (by omega)
    have hIB : (((ctPair n w 0).2 == t) = true) ↔ q = 0 := by
      rw [ctPair_zero]
      show ((w + 1 == t) = true) ↔ q = 0
      rw [beq_iff_eq, hqdef, mod_zero_iff hwm hrm]
      omega
    have hTA : (List.range' 1 (n / 2 - 1)).countP (fun p => (ctPair n w p).1 == t) =
        if 1 ≤ q ∧ q < 1 + (n / 2 - 1) then 1 else 0 := by
      rw [show (List.range' 1 (n / 2 - 1)).countP (fun p => (ctPair n w p).1 == t) =
          (List.range' 1 (n / 2 - 1)).countP (fun p => p == q) from ?_,
        ← List.count_eq_countP, count_range']
      apply List.countP_congr
      intro p hp
      rw [List.mem_range'_1] at hp
      have hppos : 0 < p := hp.1
      have hpm : p < n - 1 := by omega
      simp only [beq_iff_eq, ctPair_pos n w p hppos]
      show (w + p) % (n - 1) + 1 = t ↔ p = q
      rw [hqdef, ← mod_shift_iff hwm hrm hpm]
      omega
    have hTB : (List.range' 1 (n / 2 - 1)).countP (fun p => (ctPair n w p).2 == t) =
        if q = 0 then 0 else if 1 ≤ (n - 1 - q) ∧ (n - 1 - q) < 1 + (n / 2 - 1) then 1 else 0 := by
      by_cases hq0 : q = 0
      · rw [if_pos hq0]
        rw [show (List.range' 1 (n / 2 - 1)).countP (fun p => (ctPair n w p).2 == t) =
            (List.range' 1 (n / 2 - 1)).countP (fun _ => false) from ?_, countP_false_nil]
        apply List.countP_congr
        intro p hp
        rw [List.mem_range'_1] at hp
        have hppos : 0 < p := hp.1
        have hpm : p < n - 1 := by omega
        simp only [beq_iff_eq, ctPair_pos n w p hppos, Bool.false_eq_true, iff_false]
        show ¬ ((n - 1) - p + w) % (n - 1) + 1 = t
        intro hcon
        have hmp : (n - 1) - p < n - 1 := by omega
        have : (n - 1) - p = q := by
          rw [hqdef, ← mod_shift_iff hwm hrm hmp]
          rw [show w + ((n - 1) - p) = (n - 1) - p + w by omega]
          omega
        omega
      · rw [if_neg hq0]
        rw [show (List.range' 1 (n / 2 - 1)).countP (fun p => (ctPair n w p).2 == t) =
            (List.range' 1 (n / 2 - 1)).countP (fun p => p == (n - 1 - q)) from ?_,
          ← List.count_eq_countP, count_range']
        apply List.countP_congr
        intro p hp
        rw [List.mem_range'_1] at hp
        have hppos : 0 < p := hp.1
        have hpm : p < n - 1 := by omega
        simp only [beq_iff_eq, ctPair_pos n w p hppos]
        show (n - 1 - p + w) % (n - 1) + 1 = t ↔ p = n - 1 - q
        have hmp : (n - 1) - p < n - 1 := by omega
        constructor
        · intro hcon
          have : (n - 1) - p = q := by
            rw [hqdef, ← mod_shift_iff hwm hrm hmp]
            rw [show w + ((n - 1) - p) = (n - 1) - p + w by omega]
            omega
          omega
        · intro hpq
          have hq1 : 1 ≤ q := by omega
          have : (n - 1) - p = q := by omega
          have hmod : (w + ((n - 1) - p)) % (n - 1) = t - 1 := by
            rw [mod_shift_iff hwm hrm hmp, ← hqdef, this]
          rw [show (n - 1) - p + w = w + ((n - 1) - p) by omega, hmod]
          omega
    rw [hTA, hTB]
    have hIBval : (if ((ctPair n w 0).2 == t) = true then 1 else 0) =
        (if q = 0 then 1 else 0) := by
      by_cases hq0 : q = 0
      · rw [if_pos (hIB.2 hq0), if_pos hq0]
      · rw [if_neg (fun hh => hq0 (hIB.1 hh)), if_neg hq0]
    rw [hIBval, hIA]
    simp only [Bool.false_eq_true, if_false]
    split_ifs <;> omega
  · -- t = n: only the fixed team at slot 0 of the primary row
    have htn' : t = n := by omega
    have hIA : ((ctPair n w 0).1 == t) = true := by
      rw [ctPair_zero]
      exact beq_iff_eq.2 (by omega)
    have hIB : ((ctPair n w 0).2 == t) = false := by
      rw [ctPair_zero]
      exact beq_eq_false_iff_ne.2 (by omega)
    have hTA : (List.range' 1 (n / 2 - 1)).countP (fun p => (ctPair n w p).1 == t) = 0 := by
      rw [show (List.range' 1 (n / 2 - 1)).countP (fun p => (ctPair n w p).1 == t) =
          (List.range' 1 (n / 2 - 1)).countP (fun _ => false) from ?_, countP_false_nil]
      apply List.countP_congr
      intro p hp
      rw [List.mem_range'_1] at hp
      simp only [beq_iff_eq, ctPair_pos n w p hp.1, Bool.false_eq_true, iff_false]
      show ¬ (w + p) % (n - 1) + 1 = t
      have := Nat.mod_lt (w + p) (show 0 < n - 1 by omega)
      omega
    have hTB : (List.range' 1 (n / 2 - 1)).countP (fun p => (ctPair n w p).2 == t) = 0 := by
      rw [show (List.range' 1 (n / 2 - 1)).countP (fun p => (ctPair n w p).2 == t) =
          (List.range' 1 (n / 2 - 1)).countP (fun _ => false) from ?_, countP_false_nil]
      apply List.countP_congr
      intro p hp
      rw [List.mem_range'_1] at hp
      simp only [beq_iff_eq, ctPair_pos n w p hp.1, Bool.false_eq_true, iff_false]
      show ¬ ((n - 1) - p + w) % (n - 1) + 1 = t
      have := Nat.mod_lt ((n - 1) - p + w) (show 0 < n - 1 by omega)
      omega
    rw [hTA, hTB, hIA, hIB]
    simp

lemma rowA_getD {n w p : Nat} (hp : p < n / 2) :
    (rowA n w).getD p 0 = max (ctPair n w p).1 (ctPair n w p).2 := by
  rw [rowA]
  exact getD_map_range _ _ hp

lemma rowB_getD {n w p : Nat} (hp : p < n / 2) :
    (rowB n w).getD p 0 = min (ctPair n w p).1 (ctPair n w p).2 := by
  rw [rowB]
  exact getD_map_range _ _ hp

lemma maxmin_iff {a b i j : Nat} (hij : i < j) :
    (max a b = j ∧ min a b = i) ↔ ((a = j ∧ b = i) ∨ (a = i ∧ b = j)) := by
  rcases le_total a b with h | h
  · rw [max_eq_right h, min_eq_left h]
    omega
  · rw [max_eq_left h, min_eq_right h]
    omega

/-- Every unordered pair `{i, j}` of distinct teams appears, canonically
oriented, in exactly one week of the unswapped circle tables. -/
lemma pair_unique_unswapped {n : Nat} (hn2 : n % 2 = 0) (hn4 : 4 ≤ n) {i j : Nat}
    (hi : 1 ≤ i) (hij : i < j) (hj : j ≤ n) :
    ∃! w, w < n - 1 ∧ ∃ p, p < n / 2 ∧
      (rowA n w).getD p 0 = j ∧ (rowB n w).getD p 0 = i := by
  have hmP : n - 1 = 2 * (n / 2) - 1 := by omega
  have hP2 : 2 ≤ n / 2 := by omega
  have hm0 : 0 < n - 1 := by omega
  rcases Nat.lt_or_ge j n with hjm | hjn
  case inr =>
    -- j = n: slot 0 of week i - 1, and only there
    refine ⟨i - 1, ⟨by omega, 0, by omega, ?_, ?_⟩, ?_⟩
    · rw [rowA_getD (by omega), ctPair_zero]
      show max n (i - 1 + 1) = j
      rw [max_eq_left (by omega)]
      omega
    · rw [rowB_getD (by omega), ctPair_zero]
      show min n (i - 1 + 1) = i
      rw [min_eq_right (by omega)]
      omega
    · rintro w' ⟨hw', p', hp', hA, hB⟩
      rcases Nat.eq_zero_or_pos p' with rfl | hp'pos
      · rw [rowB_getD (by omega), ctPair_zero] at hB
        rw [show min n (w' + 1) = w' + 1 from min_eq_right (by omega)] at hB
        omega
      · exfalso
        rw [rowA_getD hp', ctPair_pos n w' p' hp'pos] at hA
        have h1 := Nat.mod_lt (w' + p') hm0
        have h2 := Nat.mod_lt ((n - 1) - p' + w') hm0
        rcases le_total ((w' + p') % (n - 1) + 1) (((n - 1) - p' + w') % (n - 1) + 1) with h | h
        · rw [max_eq_right h] at hA
          omega
        · rw [max_eq_left h] at hA
          omega
  case inl =>
    -- j ≤ n - 1: the week is determined by (i - 1) + (j - 1) modulo n - 1
    set s := (i - 1) + (j - 1) with hsdef
    set wstar := ((n / 2) * s) % (n - 1) with hwdef
    have hwm : wstar < n - 1 := Nat.mod_lt _ hm0
    have hPmul : ∀ u, u < n - 1 → ((n / 2) * (2 * u)) % (n - 1) = u := by
      intro u hu
      have hm1 : (n - 1) + 1 = 2 * (n / 2) := by omega
      have hexp : (n / 2) * (2 * u) = u + (n - 1) * u := by
        calc (n / 2) * (2 * u) = (2 * (n / 2)) * u := by ring
          _ = ((n - 1) + 1) * u := by rw [hm1]
          _ = u + (n - 1) * u := by ring
      rw [hexp, Nat.add_mul_mod_self_left, Nat.mod_eq_of_lt hu]
    have h2w : (2 * wstar) % (n - 1) = s % (n - 1) := by
      have h1 : (2 * (((n / 2) * s) % (n - 1))) % (n - 1) =
          (2 * ((n / 2) * s)) % (n - 1) := by
        conv_lhs => rw [Nat.mul_mod]
        rw [Nat.mod_mod_of_dvd _ dvd_rfl, ← Nat.mul_mod]
      have hm1 : (n - 1) + 1 = 2 * (n / 2) := by omega
      have hexp : 2 * ((n / 2) * s) = s + (n - 1) * s := by
        calc 2 * ((n / 2) * s) = (2 * (n / 2)) * s := by ring
          _ = ((n - 1) + 1) * s := by rw [hm1]
          _ = s + (n - 1) * s := by ring
      rw [hwdef, h1, hexp, Nat.add_mul_mod_self_left]
    have hrj : j - 1 < n - 1 := by omega
    have hri : i - 1 < n - 1 := by omega
    set p0 := ((j - 1) + ((n - 1) - wstar)) % (n - 1) with hp0def
    set p1 := ((i - 1) + ((n - 1) - wstar)) % (n - 1) with hp1def
    have hp0m : p0 < n - 1 := Nat.mod_lt _ hm0
    have hp1m : p1 < n - 1 := Nat.mod_lt _ hm0
    have hfp0 : (wstar + p0) % (n - 1) = j - 1 := (mod_shift_iff hwm hrj hp0m).2 hp0def
    have hfp1 : (wstar + p1) % (n - 1) = i - 1 := (mod_shift_iff hwm hri hp1m).2 hp1def
    have hsum : p0 + p1 = n - 1 := by
      have hadd : ((wstar + p0) + (wstar + p1)) % (n - 1) =
          ((j - 1) + (i - 1)) % (n - 1) := by
        rw [Nat.add_mod (wstar + p0), hfp0, hfp1]
      rw [show (wstar + p0) + (wstar + p1) = 2 * wstar + (p0 + p1) by ring] at hadd
      have hs' : ((j - 1) + (i - 1)) % (n - 1) = s % (n - 1) := by
        rw [show (j - 1) + (i - 1) = s by omega]
      have hcancel : (p0 + p1) % (n - 1) = 0 := by
        have h1 : (2 * wstar + (p0 + p1)) % (n - 1) = (2 * wstar + 0) % (n - 1) := by
          rw [Nat.add_zero, hadd, hs', h2w]
        have h2 : Nat.ModEq (n - 1) (p0 + p1) 0 :=
          Nat.ModEq.add_left_cancel' (2 * wstar) h1
        simpa [Nat.ModEq] using h2
      have hnz : ¬ (p0 = 0 ∧ p1 = 0) := by
        rintro ⟨h0, h1'⟩
        have e0 : j - 1 = wstar := (mod_zero_iff hwm hrj).1 (by rw [← hp0def]; exact h0)
        have e1 : i - 1 = wstar := (mod_zero_iff hwm hri).1 (by rw [← hp1def]; exact h1')
        omega
      rcases Nat.lt_or_ge (p0 + p1) (n - 1) with hl | hg
      · rw [Nat.mod_eq_of_lt hl] at hcancel
        omega
      · rw [Nat.mod_eq_sub_mod hg, Nat.mod_eq_of_lt (by omega)] at hcancel
        omega
    have hp0pos : 1 ≤ p0 := by omega
    have hp1pos : 1 ≤ p1 := by omega
    have hslot : ∀ p, 1 ≤ p → p < n / 2 → (wstar + p) % (n - 1) = j - 1 →
        (wstar + ((n - 1) - p)) % (n - 1) = i - 1 →
        (rowA n wstar).getD p 0 = j ∧ (rowB n wstar).getD p 0 = i := by
      intro p hp1' hpP hfj hfi
      rw [rowA_getD hpP, rowB_getD hpP, ctPair_pos n wstar p (by omega)]
      constructor
      · show max ((wstar + p) % (n - 1) + 1) (((n - 1) - p + wstar) % (n - 1) + 1) = j
        rw [show (n - 1) - p + wstar = wstar + ((n - 1) - p) by omega, hfj, hfi]
        rw [max_eq_left (by omega)]
        omega
      · show min ((wstar + p) % (n - 1) + 1) (((n - 1) - p + wstar) % (n - 1) + 1) = i
        rw [show (n - 1) - p + wstar = wstar + ((n - 1) - p) by omega, hfj, hfi]
        rw [min_eq_right (by omega)]
        omega
    have hslot2 : ∀ p, 1 ≤ p → p < n / 2 → (wstar + p) % (n - 1) = i - 1 →
        (wstar + ((n - 1) - p)) % (n - 1) = j - 1 →
        (rowA n wstar).getD p 0 = j ∧ (rowB n wstar).getD p 0 = i := by
      intro p hp1' hpP hfi hfj
      rw [rowA_getD hpP, rowB_getD hpP, ctPair_pos n wstar p (by omega)]
      constructor
      · show max ((wstar + p) % (n - 1) + 1) (((n - 1) - p + wstar) % (n - 1) + 1) = j
        rw [show (n - 1) - p + wstar = wstar + ((n - 1) - p) by omega, hfi, hfj]
        rw [max_eq_right (by omega)]
        omega
      · show min ((wstar + p) % (n - 1) + 1) (((n - 1) - p + wstar) % (n - 1) + 1) = i
        rw [show (n - 1) - p + wstar = wstar + ((n - 1) - p) by omega, hfi, hfj]
        rw [min_eq_left (by omega)]
        omega
    have hexists : ∃ p, p < n / 2 ∧
        (rowA n wstar).getD p 0 = j ∧ (rowB n wstar).getD p 0 = i := by
      rcases Nat.lt_or_ge p0 (n / 2) with hP | hP
      · refine ⟨p0, hP, hslot p0 hp0pos hP hfp0 ?_⟩
        rw [show (n - 1) - p0 = p1 by omega]
        exact hfp1
      · refine ⟨p1, by omega, hslot2 p1 hp1pos (by omega) hfp1 ?_⟩
        rw [show (n - 1) - p1 = p0 by omega]
        exact hfp0
    obtain ⟨p, hpP, hpA, hpB⟩ := hexists
    refine ⟨wstar, ⟨hwm, p, hpP, hpA, hpB⟩, ?_⟩
    rintro w' ⟨hw', p', hp'P, hA, hB⟩
    have hp'm : p' < n - 1 := by omega
    rcases Nat.eq_zero_or_pos p' with rfl | hp'pos
    · exfalso
      rw [rowA_getD (by omega), ctPair_zero] at hA
      rw [show max n (w' + 1) = n from max_eq_left (by omega)] at hA
      omega
    · rw [rowA_getD hp'P, ctPair_pos n w' p' (by omega)] at hA
      rw [rowB_getD hp'P, ctPair_pos n w' p' (by omega)] at hB
      have hmm' := (maxmin_iff hij).1 ⟨hA, hB⟩
      have hsum2 : ((w' + p') % (n - 1) + ((n - 1) - p' + w') % (n - 1)) = s := by
        rcases hmm' with ⟨h1, h2⟩ | ⟨h1, h2⟩ <;> omega
      have h2w' : (2 * w') % (n - 1) = s % (n - 1) := by
        have hδ : (2 * w' + (n - 1)) % (n - 1) = s % (n - 1) := by
          rw [show 2 * w' + (n - 1) = (w' + p') + ((n - 1) - p' + w') by omega]
          rw [Nat.add_mod, hsum2]
        rwa [Nat.add_mod_right] at hδ
      have h2ws : ((n / 2) * (2 * w')) % (n - 1) = ((n / 2) * (2 * wstar)) % (n - 1) := by
        rw [Nat.mul_mod, h2w', ← h2w, ← Nat.mul_mod]
      rwa [hPmul w' hw', hPmul wstar hwm] at h2ws

/-! ### The first-row swap: a transposition of two slots inside one week -/

lemma length_listSwap (l : List Nat) (r : Nat) : (listSwap l r).length = l.length := by
  simp [listSwap]

lemma getD_set (l : List Nat) (i j a : Nat) (hj : j < l.length) :
    (l.set i a).getD j 0 = if i = j then a else l.getD j 0 := by
  rw [List.getD_eq_getElem _ _ (by simpa using hj), List.getElem_set]
  split
  · rfl
  · rw [List.getD_eq_getElem _ _ hj]

/-- The transposition of indices `0` and `r`. -/
def swapIdx (r s : Nat) : Nat :=
  if s = 0 then r else if s = r then 0 else s

lemma getD_listSwap (l : List Nat) (r s : Nat) (hr : r < l.length) (hs : s < l.length) :
    (listSwap l r).getD s 0 = l.getD (swapIdx r s) 0 := by
  unfold listSwap swapIdx
  rw [getD_set _ _ _ _ (by simpa using hs)]
  by_cases hrs : r = s
  · subst hrs
    rw [if_pos rfl]
    by_cases hr0 : r = 0
    · subst hr0
      rw [if_pos rfl]
    · rw [if_neg hr0, if_pos rfl]
  · rw [if_neg hrs, getD_set _ _ _ _ hs]
    by_cases hs0 : s = 0
    · subst hs0
      rw [if_pos rfl, if_pos rfl]
    · rw [if_neg (by omega), if_neg hs0, if_neg (by omega)]

lemma count_set (l : List Nat) : ∀ i, i < l.length → ∀ a t : Nat,
    (l.set i a).count t + (if l.getD i 0 = t then 1 else 0) =
      l.count t + (if a = t then 1 else 0) := by
  induction l with
  | nil => intro i hi; simp at hi
  | cons x xs ih =>
    intro i hi a t
    cases i with
    | zero =>
      simp only [List.set_cons_zero, List.count_cons, List.getD_cons_zero, beq_iff_eq]
      split_ifs <;> omega
    | succ i =>
      simp only [List.set_cons_succ, List.count_cons, List.getD_cons_succ, beq_iff_eq]
      have hrec := ih i (by simpa using hi) a t
      split_ifs at hrec ⊢ <;> omega

lemma count_listSwap (l : List Nat) (r t : Nat) (hr : r < l.length) :
    (listSwap l r).count t = l.count t := by
  unfold listSwap
  have h1 := count_set l 0 (by omega) (l.getD r 0) t
  have h2 := count_set (l.set 0 (l.getD r 0)) r (by simpa using hr) (l.getD 0 0) t
  have h3 : (l.set 0 (l.getD r 0)).getD r 0 = l.getD r 0 := by
    rw [getD_set _ _ _ _ hr]
    split <;> rfl
  rw [h3] at h2
  split_ifs at h1 h2 <;> omega

/-- Counting over `range P` is invariant under precomposition with the
transposition of `0` and `r`. -/
lemma countP_range_swap (P r : Nat) (hr0 : 1 ≤ r) (hr : r < P) (f : Nat → Bool) :
    (List.range P).countP (fun s => f (swapIdx r s)) = (List.range P).countP f := by
  have hsplit : List.range P =
      ([0] ++ List.range' 1 (r - 1)) ++ ([r] ++ List.range' (r + 1) (P - (r + 1))) := by
    have e1 : [0] ++ List.range' 1 (r - 1) = List.range' 0 r := by
      have h := List.range'_append 0 1 (r - 1) 1
      rw [show 0 + 1 * 1 = 1 by norm_num, show r - 1 + 1 = r by omega] at h
      exact h
    have e2 : [r] ++ List.range' (r + 1) (P - (r + 1)) = List.range' r (P - r) := by
      have h := List.range'_append r 1 (P - (r + 1)) 1
      rw [show r + 1 * 1 = r + 1 by omega, show P - (r + 1) + 1 = P - r by omega] at h
      exact h
    have e3 : List.range' 0 r ++ List.range' r (P - r) = List.range' 0 P := by
      have h := List.range'_append 0 r (P - r) 1
      rw [show 0 + 1 * r = r by omega, show P - r + r = P by omega] at h
      exact h
    rw [List.range_eq_range', ← e3, ← e1, ← e2]
  have hmid : ∀ g : Nat → Bool, (List.range' 1 (r - 1)).countP (fun s => g (swapIdx r s)) =
      (List.range' 1 (r - 1)).countP g := by
    intro g
    apply List.countP_congr
    intro sVal hsv
    rw [List.mem_range'_1] at hsv
    have heq : swapIdx r sVal = sVal := by
      unfold swapIdx
      rw [if_neg (by omega), if_neg (by omega)]
    simp [heq]
  have htail : ∀ g : Nat → Bool,
      (List.range' (r + 1) (P - (r + 1))).countP (fun s => g (swapIdx r s)) =
      (List.range' (r + 1) (P - (r + 1))).countP g := by
    intro g
    apply List.countP_congr
    intro sVal hsv
    rw [List.mem_range'_1] at hsv
    have heq : swapIdx r sVal = sVal := by
      unfold swapIdx
      rw [if_neg (by omega), if_neg (by omega)]
    simp [heq]
  rw [hsplit]
  simp only [List.countP_append]
  rw [hmid, htail]
  have h0 : ([0] : List Nat).countP (fun s => f (swapIdx r s)) =
      ([0] : List Nat).countP (fun _ => f r) := by
    apply List.countP_congr
    intro sVal hsv
    rw [List.mem_singleton] at hsv
    have heq : swapIdx r sVal = r := by
      rw [hsv]
      unfold swapIdx
      rw [if_pos rfl]
    simp [heq]
  have hr' : ([r] : List Nat).countP (fun s => f (swapIdx r s)) =
      ([r] : List Nat).countP (fun _ => f 0) := by
    apply List.countP_congr
    intro sVal hsv
    rw [List.mem_singleton] at hsv
    have heq : swapIdx r sVal = 0 := by
      rw [hsv]
      unfold swapIdx
      rw [if_neg (by omega), if_pos rfl]
    simp [heq]
  rw [h0, hr']
  simp only [List.countP_cons, List.countP_nil]
  omega

lemma swapIdx_invol (r s : Nat) : swapIdx r (swapIdx r s) = s := by
  unfold swapIdx
  split_ifs <;> omega

lemma swapIdx_lt {r s P : Nat} (hr : r < P) (hs : s < P) : swapIdx r s < P := by
  unfold swapIdx
  split_ifs <;> omega

lemma ctPair_fst_ne_snd {n : Nat} (hn2 : n % 2 = 0) (hn4 : 4 ≤ n) {w p : Nat}
    (hw : w < n - 1) (hp : p < n / 2) : (ctPair n w p).1 ≠ (ctPair n w p).2 := by
  have hmP : n - 1 = 2 * (n / 2) - 1 := by omega
  have hm0 : 0 < n - 1 := by omega
  rcases Nat.eq_zero_or_pos p with rfl | hppos
  · rw [ctPair_zero]
    show n ≠ w + 1
    omega
  · rw [ctPair_pos n w p hppos]
    show (w + p) % (n - 1) + 1 ≠ ((n - 1) - p + w) % (n - 1) + 1
    intro hcon
    set r := (w + p) % (n - 1) with hrdef
    have hrm : r < n - 1 := Nat.mod_lt _ hm0
    have hpm : p < n - 1 := by omega
    have hmpm : (n - 1) - p < n - 1 := by omega
    have h1 : p = (r + ((n - 1) - w)) % (n - 1) := (mod_shift_iff hw hrm hpm).1 hrdef.symm
    have h2 : (n - 1) - p = (r + ((n - 1) - w)) % (n - 1) := by
      apply (mod_shift_iff hw hrm hmpm).1
      rw [show w + ((n - 1) - p) = (n - 1) - p + w by omega]
      omega
    omega

lemma min_lt_max_of_ne {a b : Nat} (h : a ≠ b) : min a b < max a b := by
  rcases le_total a b with hh | hh
  · rw [min_eq_left hh, max_eq_right hh]
    omega
  · rw [min_eq_right hh, max_eq_left hh]
    omega

/-- The swap search of `circle_tables` always succeeds: team `n - w`
sits in some slot `r ∈ [1, n/2)` of week `w ≥ 1`. -/
lemma swapRow_spec {n : Nat} (hn2 : n % 2 = 0) (hn4 : 4 ≤ n) {w : Nat}
    (hw1 : 1 ≤ w) (hw2 : w < n - 1) :
    ∃ r, swapRow n w = some r ∧ 1 ≤ r ∧ r < n / 2 ∧
      ((rowA n w).getD r 0 = n - w ∨ (rowB n w).getD r 0 = n - w) := by
  have hmP : n - 1 = 2 * (n / 2) - 1 := by omega
  have hcount := week_count hn2 hn4 hw2 (t := n - w) (by omega) (by omega)
  have hmem : ∃ p, p < n / 2 ∧
      ((rowA n w).getD p 0 = n - w ∨ (rowB n w).getD p 0 = n - w) := by
    rcases Nat.lt_or_ge 0 ((rowA n w).count (n - w)) with hA | hA
    · have hmemA := List.count_pos_iff.1 hA
      rw [rowA, List.mem_map] at hmemA
      obtain ⟨p, hpmem, hpe⟩ := hmemA
      rw [List.mem_range] at hpmem
      exact ⟨p, hpmem, Or.inl (by rw [rowA_getD hpmem]; exact hpe)⟩
    · have hBpos : 0 < (rowB n w).count (n - w) := by omega
      have hmemB := List.count_pos_iff.1 hBpos
      rw [rowB, List.mem_map] at hmemB
      obtain ⟨p, hpmem, hpe⟩ := hmemB
      rw [List.mem_range] at hpmem
      exact ⟨p, hpmem, Or.inr (by rw [rowB_getD hpmem]; exact hpe)⟩
  obtain ⟨p, hpP, hpor⟩ := hmem
  have hppos : 1 ≤ p := by
    rcases Nat.eq_zero_or_pos p with rfl | h
    · exfalso
      rcases hpor with hA | hB
      · rw [rowA_getD (by omega), ctPair_zero] at hA
        rw [show max n (w + 1) = n from max_eq_left (by omega)] at hA
        omega
      · rw [rowB_getD (by omega), ctPair_zero] at hB
        rw [show min n (w + 1) = w + 1 from min_eq_right (by omega)] at hB
        omega
    · exact h
  have hfind : (swapRow n w).isSome := by
    rw [swapRow, List.find?_isSome]
    refine ⟨p, List.mem_range'_1.2 ⟨hppos, by omega⟩, ?_⟩
    show (((rowA n w).getD p 0 == n - w) || ((rowB n w).getD p 0 == n - w)) = true
    rcases hpor with hA | hB
    · rw [hA]
      simp
    · rw [hB]
      simp
  obtain ⟨r, hr⟩ := Option.isSome_iff_exists.1 hfind
  rw [swapRow] at hr
  have hrmem : r ∈ List.range' 1 (n / 2 - 1) := List.mem_of_find?_eq_some hr
  have hrsat := List.find?_some hr
  rw [List.mem_range'_1] at hrmem
  refine ⟨r, by rw [swapRow]; exact hr, hrmem.1, by omega, ?_⟩
  simpa [Bool.or_eq_true, beq_iff_eq] using hrsat

lemma circleA_getD {n w : Nat} (hw : w < n - 1) :
    (circleA n).getD w [] =
      if w = 0 then rowA n w
      else
        match swapRow n w with
        | some r => listSwap (rowA n w) r
        | none => rowA n w := by
  rw [circleA]
  exact getD_map_range _ _ hw

lemma circleB_getD {n w : Nat} (hw : w < n - 1) :
    (circleB n).getD w [] =
      if w = 0 then rowB n w
      else
        match swapRow n w with
        | some r => listSwap (rowB n w) r
        | none => rowB n w := by
  rw [circleB]
  exact getD_map_range _ _ hw

lemma rowA_length (n w : Nat) : (rowA n w).length = n / 2 := by
  simp [rowA]

lemma rowB_length (n w : Nat) : (rowB n w).length = n / 2 := by
  simp [rowB]

/-- C9: for every even `n ≥ 4` and every week `w ∈ [1, n-2]`, the swap
search of `circle_tables` finds an `r ∈ [1, n/2)` whose pair contains
team `n - w` (the `next(...)` never fails); the swap touches only slots
`0` and `r` of that week, and the week's multiset of (canonically
oriented) pairs is unchanged. -/
theorem circle_swap_heuristic_safe (n : Nat) (hn2 : n % 2 = 0) (hn4 : 4 ≤ n) :
    ∀ w, 1 ≤ w → w < n - 1 →
    ∃ r, swapRow n w = some r ∧ 1 ≤ r ∧ r < n / 2 ∧
      ((rowA n w).getD r 0 = n - w ∨ (rowB n w).getD r 0 = n - w) ∧
      (∀ s, s < n / 2 → s ≠ 0 → s ≠ r →
        ((circleA n).getD w []).getD s 0 = (rowA n w).getD s 0 ∧
        ((circleB n).getD w []).getD s 0 = (rowB n w).getD s 0) ∧
      (∀ a b : Nat,
        (List.range (n / 2)).countP (fun p =>
          (((circleA n).getD w []).getD p 0 == a) &&
          (((circleB n).getD w []).getD p 0 == b)) =
        (List.range (n / 2)).countP (fun p =>
          ((rowA n w).getD p 0 == a) && ((rowB n w).getD p 0 == b))) := by
  intro w hw1 hw2
  obtain ⟨r, hr, hr1, hrP, hrtgt⟩ := swapRow_spec hn2 hn4 hw1 hw2
  have hA : (circleA n).getD w [] = listSwap (rowA n w) r := by
    rw [circleA_getD hw2, if_neg (by omega), hr]
  have hB : (circleB n).getD w [] = listSwap (rowB n w) r := by
    rw [circleB_getD hw2, if_neg (by omega), hr]
  have hlenA := rowA_length n w
  have hlenB := rowB_length n w
  refine ⟨r, hr, hr1, hrP, hrtgt, ?_, ?_⟩
  · intro s hsP hs0 hsr
    have heq : swapIdx r s = s := by
      unfold swapIdx
      rw [if_neg hs0, if_neg hsr]
    constructor
    · rw [hA, getD_listSwap _ _ _ (by omega) (by omega), heq]
    · rw [hB, getD_listSwap _ _ _ (by omega) (by omega), heq]
  · intro a b
    have hc := countP_range_swap (n / 2) r hr1 hrP
      (fun q => ((rowA n w).getD q 0 == a) && ((rowB n w).getD q 0 == b))
    rw [← hc]
    apply List.countP_congr
    intro p hp
    rw [List.mem_range] at hp
    have h1 : ((circleA n).getD w []).getD p 0 = (rowA n w).getD (swapIdx r p) 0 := by
      rw [hA, getD_listSwap _ _ _ (by omega) (by omega)]
    have h2 : ((circleB n).getD w []).getD p 0 = (rowB n w).getD (swapIdx r p) 0 := by
      rw [hB, getD_listSwap _ _ _ (by omega) (by omega)]
    simp only [h1, h2]

/-- Witness for `circle_swap_heuristic_safe` at `n = 6`, `w = 1`. -/
theorem circle_swap_heuristic_safe_witness :
    ∃ r, swapRow 6 1 = some r ∧ 1 ≤ r ∧ r < 6 / 2 ∧
      ((rowA 6 1).getD r 0 = 6 - 1 ∨ (rowB 6 1).getD r 0 = 6 - 1) ∧
      (∀ s, s < 6 / 2 → s ≠ 0 → s ≠ r →
        ((circleA 6).getD 1 []).getD s 0 = (rowA 6 1).getD s 0 ∧
        ((circleB 6).getD 1 []).getD s 0 = (rowB 6 1).getD s 0) ∧
      (∀ a b : Nat,
        (List.range (6 / 2)).countP (fun p =>
          (((circleA 6).getD 1 []).getD p 0 == a) &&
          (((circleB 6).getD 1 []).getD p 0 == b)) =
        (List.range (6 / 2)).countP (fun p =>
          ((rowA 6 1).getD p 0 == a) && ((rowB 6 1).getD p 0 == b))) :=
  circle_swap_heuristic_safe 6 (by decide) (by decide) 1 (by decide) (by decide)

/-- C3: for every even `n ≥ 4`, `circle_tables` produces two
`(n-1) × (n/2)` tables such that every week's combined entries list each
team of `{1..n}` exactly once, every unordered pair of distinct teams
occupies exactly one week, and each slot is canonical: the primary entry
strictly exceeds the secondary entry. -/
theorem circle_tables_correct (n : Nat) (hn2 : n % 2 = 0) (hn4 : 4 ≤ n) :
    ((circle_tables n).1.length = n - 1 ∧ (circle_tables n).2.length = n - 1 ∧
      (∀ row ∈ (circle_tables n).1, row.length = n / 2) ∧
      (∀ row ∈ (circle_tables n).2, row.length = n / 2)) ∧
    (∀ w, w < n - 1 → ∀ t, 1 ≤ t → t ≤ n →
      ((circle_tables n).1.getD w []).count t +
        ((circle_tables n).2.getD w []).count t = 1) ∧
    (∀ i j, 1 ≤ i → i < j → j ≤ n →
      ∃! w, w < n - 1 ∧ ∃ p, p < n / 2 ∧
        ((circle_tables n).1.getD w []).getD p 0 = j ∧
        ((circle_tables n).2.getD w []).getD p 0 = i) ∧
    (∀ w, w < n - 1 → ∀ p, p < n / 2 →
      ((circle_tables n).2.getD w []).getD p 0 <
        ((circle_tables n).1.getD w []).getD p 0) := by
  have hswap : ∀ w, 1 ≤ w → w < n - 1 →
      ∃ r, 1 ≤ r ∧ r < n / 2 ∧
        (circleA n).getD w [] = listSwap (rowA n w) r ∧
        (circleB n).getD w [] = listSwap (rowB n w) r := by
    intro w hw1 hw2
    obtain ⟨r, hr, hr1, hrP, _⟩ := swapRow_spec hn2 hn4 hw1 hw2
    exact ⟨r, hr1, hrP, by rw [circleA_getD hw2, if_neg (by omega), hr],
      by rw [circleB_getD hw2, if_neg (by omega), hr]⟩
  refine ⟨⟨by simp [circle_tables, circleA], by simp [circle_tables, circleB], ?_, ?_⟩,
    ?_, ?_, ?_⟩
  · intro row hrow
    rw [show (circle_tables n).1 = circleA n from rfl, circleA, List.mem_map] at hrow
    obtain ⟨w, _, rfl⟩ := hrow
    split
    · exact rowA_length n w
    · split
      · rw [length_listSwap]
        exact rowA_length n w
      · exact rowA_length n w
  · intro row hrow
    rw [show (circle_tables n).2 = circleB n from rfl, circleB, List.mem_map] at hrow
    obtain ⟨w, _, rfl⟩ := hrow
    split
    · exact rowB_length n w
    · split
      · rw [length_listSwap]
        exact rowB_length n w
      · exact rowB_length n w
  · intro w hw t ht1 ht2
    show ((circleA n).getD w []).count t + ((circleB n).getD w []).count t = 1
    rcases Nat.eq_zero_or_pos w with rfl | hwpos
    · rw [circleA_getD hw, circleB_getD hw, if_pos rfl, if_pos rfl]
      exact week_count hn2 hn4 hw ht1 ht2
    · obtain ⟨r, hr1, hrP, hcA, hcB⟩ := hswap w hwpos hw
      rw [hcA, hcB, count_listSwap _ _ _ (by rw [rowA_length]; omega),
        count_listSwap _ _ _ (by rw [rowB_length]; omega)]
      exact week_count hn2 hn4 hw ht1 ht2
  · intro i j hi hij hj
    obtain ⟨w0, hw0prop, hw0uniq⟩ := pair_unique_unswapped hn2 hn4 hi hij hj
    have htrans : ∀ w, w < n - 1 →
        ((∃ p, p < n / 2 ∧ ((circleA n).getD w []).getD p 0 = j ∧
            ((circleB n).getD w []).getD p 0 = i) ↔
          (∃ p, p < n / 2 ∧ (rowA n w).getD p 0 = j ∧ (rowB n w).getD p 0 = i)) := by
      intro w hw
      rcases Nat.eq_zero_or_pos w with rfl | hwpos
      · rw [circleA_getD hw, circleB_getD hw, if_pos rfl, if_pos rfl]
      · obtain ⟨r, hr1, hrP, hcA, hcB⟩ := hswap w hwpos hw
        rw [hcA, hcB]
        have hlenA := rowA_length n w
        have hlenB := rowB_length n w
        constructor
        · rintro ⟨p, hpP, hA, hB⟩
          refine ⟨swapIdx r p, swapIdx_lt hrP hpP, ?_, ?_⟩
          · rw [getD_listSwap (rowA n w) r p (by omega) (by omega)] at hA
            exact hA
          · rw [getD_listSwap (rowB n w) r p (by omega) (by omega)] at hB
            exact hB
        · rintro ⟨p, hpP, hA, hB⟩
          refine ⟨swapIdx r p, swapIdx_lt hrP hpP, ?_, ?_⟩
          · rw [getD_listSwap (rowA n w) r (swapIdx r p) (by omega)
              (by have := swapIdx_lt hrP hpP; omega), swapIdx_invol]
            exact hA
          · rw [getD_listSwap (rowB n w) r (swapIdx r p) (by omega)
              (by have := swapIdx_lt hrP hpP; omega), swapIdx_invol]
            exact hB
    refine ⟨w0, ⟨hw0prop.1, (htrans w0 hw0prop.1).2 hw0prop.2⟩, ?_⟩
    rintro w' ⟨hw', hex⟩
    exact hw0uniq w' ⟨hw', (htrans w' hw').1 hex⟩
  · intro w hw p hp
    show ((circleB n).getD w []).getD p 0 < ((circleA n).getD w []).getD p 0
    rcases Nat.eq_zero_or_pos w with rfl | hwpos
    · rw [circleA_getD hw, circleB_getD hw, if_pos rfl, if_pos rfl, rowA_getD hp, rowB_getD hp]
      exact min_lt_max_of_ne (ctPair_fst_ne_snd hn2 hn4 hw hp)
    · obtain ⟨r, hr1, hrP, hcA, hcB⟩ := hswap w hwpos hw
      have hlenA := rowA_length n w
      have hlenB := rowB_length n w
      rw [hcA, hcB, getD_listSwap (rowA n w) r p (by omega) (by omega),
        getD_listSwap (rowB n w) r p (by omega) (by omega)]
      rw [rowA_getD (swapIdx_lt hrP hp), rowB_getD (swapIdx_lt hrP hp)]
      exact min_lt_max_of_ne (ctPair_fst_ne_snd hn2 hn4 hw (swapIdx_lt hrP hp))

/-- Witness for `circle_tables_correct` at `n = 6`: shape, the week-2
count of team 4, and the canonical orientation of slot (1, 2). -/
theorem circle_tables_correct_witness :
    (circle_tables 6).1.length = 6 - 1 ∧
    ((circle_tables 6).1.getD 2 []).count 4 + ((circle_tables 6).2.getD 2 []).count 4 = 1 ∧
    ((circle_tables 6).2.getD 1 []).getD 2 0 < ((circle_tables 6).1.getD 1 []).getD 2 0 :=
  ⟨(circle_tables_correct 6 (by decide) (by decide)).1.1,
   (circle_tables_correct 6 (by decide) (by decide)).2.1 2 (by decide) 4 (by decide) (by decide),
   (circle_tables_correct 6 (by decide) (by decide)).2.2.2 1 (by decide) 2 (by decide)⟩

end STS
